import Mathlib

/-!
Verification of the Knodiq audio engine core against its specification.

The Rust sources are shallowly embedded below.  Conventions used
throughout the embedding:

* `f32` samples are modelled by the inductive type `F32`: finite values
  are carried exactly as rationals, and the IEEE special values
  (infinities, NaN) are explicit constructors.  Finite arithmetic is
  exact (no rounding), which is adequate for every property considered
  here; the division/remainder-by-zero behaviour of IEEE arithmetic is
  modelled faithfully (`x/0 = ±inf` for `x ≠ 0`, `0/0 = NaN`,
  `x % 0 = NaN`).  Signed zero is not modelled (the source only compares
  against the literal `0.0`).
* Musical-time quantities (`Beats = f32`) are modelled by `ℚ` with exact
  arithmetic; `f32::round` is `rustRound` (round half away from zero)
  and the saturating `as usize` cast is `Int.toNat`.
* Rust `Vec` is `List`; `usize` is `ℕ` (with `ℤ` where an intermediate
  value of the source could conceptually go below zero).
* `HashMap` values in `Graph::topological_sort` are modelled as total
  functions together with an explicit, insertion-ordered key list for
  the iteration that seeds the queue (hash-map iteration order is
  unspecified in Rust; the properties proved are order-independent).
-/

namespace Knodiq

/-! ## Model of `f32` (`Sample` in `src/graph/value`, `src/buffer`) -/

/-- Model of an `f32` sample: exact rationals for finite values plus the
IEEE special values.  `inf false` is `+∞`, `inf true` is `-∞`. -/
inductive F32 where
  | num (q : ℚ)
  | inf (neg : Bool)
  | nan
  deriving DecidableEq

namespace F32

/-- The `f32` literal `0.0`. -/
def zero : F32 := .num 0

/-- Rust `x == 0.0` on `f32` (NaN and infinities compare unequal). -/
def eqZero : F32 → Bool
  | .num q => q = 0
  | _ => false

/-- Rust truncation toward zero, used for the `%` remainder. -/
def qtrunc (q : ℚ) : ℤ := if 0 ≤ q then ⌊q⌋ else ⌈q⌉

/-- IEEE `f32` addition (exact on finite values). -/
def fadd : F32 → F32 → F32
  | .num a, .num b => .num (a + b)
  | .nan, _ => .nan
  | _, .nan => .nan
  | .inf s, .num _ => .inf s
  | .num _, .inf s => .inf s
  | .inf s, .inf t => if s = t then .inf s else .nan

/-- IEEE `f32` division (exact quotient on finite values); a zero
divisor yields an infinity, or NaN for `0/0`. -/
def fdiv : F32 → F32 → F32
  | .num a, .num b =>
      if b = 0 then (if a = 0 then .nan else .inf (decide (a < 0)))
      else .num (a / b)
  | .nan, _ => .nan
  | _, .nan => .nan
  | .inf _, .inf _ => .nan
  | .inf s, .num b => .inf (s ≠ decide (b < 0))
  | .num _, .inf _ => .num 0

/-- IEEE `f32` remainder (Rust `%`, truncated toward zero); a zero
divisor yields NaN. -/
def frem : F32 → F32 → F32
  | .num a, .num b =>
      if b = 0 then .nan else .num (a - b * qtrunc (a / b))
  | .nan, _ => .nan
  | _, .nan => .nan
  | .inf _, _ => .nan
  | .num a, .inf _ => .num a

end F32

/-! ## Beat / sample math (`src/audio_utils/duration.rs`) -/

/-- `Beats` (= `f32`) modelled as exact rationals. -/
abbrev Beats := ℚ

/-- Rust `f32::round`: round half away from zero. -/
def rustRound (q : ℚ) : ℤ := if 0 ≤ q then ⌊q + 1 / 2⌋ else -⌊-q + 1 / 2⌋

/-- `samples_as_beats(samples_per_beat, samples) = samples / samples_per_beat`. -/
def samples_as_beats (samples_per_beat : Beats) (samples : ℕ) : Beats :=
  (samples : ℚ) / samples_per_beat

/-- `beats_as_samples(samples_per_beat, beats) = (beats * samples_per_beat).round() as usize`.
The `as usize` cast saturates negative values to `0` (`Int.toNat`). -/
def beats_as_samples (samples_per_beat : Beats) (beats : Beats) : ℕ :=
  (rustRound (beats * samples_per_beat)).toNat

/-- `Mixer::samples_per_beat` (`src/mixing/mixer.rs`):
`sample_rate / (tempo / 60)`. -/
def mixerSamplesPerBeat (sample_rate : ℕ) (tempo : Beats) : Beats :=
  (sample_rate : ℚ) / (tempo / 60)

/-! ## Audio buffers (`src/buffer/source.rs`) -/

/-- `AudioBuffer = Vec<Vec<Sample>>`. -/
abbrev AudioBuffer := List (List F32)

/-- `AudioSource` (`src/buffer/source.rs`). -/
structure AudioSource where
  sample_rate : ℕ
  channels : ℕ
  data : AudioBuffer
  deriving DecidableEq

namespace AudioSource

/-- `AudioSource::new`: `channels` empty channel vectors. -/
def new (sample_rate channels : ℕ) : AudioSource :=
  ⟨sample_rate, channels, List.replicate channels []⟩

/-- `AudioSource::zeros`. -/
def zeros (sample_rate channels length : ℕ) : AudioSource :=
  ⟨sample_rate, channels, List.replicate channels (List.replicate length F32.zero)⟩

/-- `AudioSource::from_buffer`. -/
def from_buffer (buffer : AudioBuffer) (sample_rate channels : ℕ) : AudioSource :=
  ⟨sample_rate, channels, buffer⟩

/-- `AudioSource::samples` reads `self.data[0].len()`.  The index is in
bounds only when the buffer has at least one channel; the partiality of
the access is made explicit with `Option` (a `none` result marks the
out-of-bounds `self.data[0]` access, which panics in the source). -/
def samplesRead : AudioSource → Option ℕ :=
  fun s => s.data.head?.map List.length

/-- The sample count of channel 0 obtained when the access is in bounds
(`0` stands in for the panicking access, used only under a
`channels ≥ 1` hypothesis). -/
def samples (s : AudioSource) : ℕ := (s.data.headD []).length

/-- The inner `+=` loop of `AudioSource::mix_at`:
`for (k, &other_sample) in other_channel { self[ch][offset + k] += other_sample }`,
expressed with the offset advanced one step per element. -/
def mixInto (ch : List F32) (offset : ℕ) : List F32 → List F32
  | [] => ch
  | s :: rest =>
      mixInto (ch.set offset (F32.fadd (ch.getD offset F32.zero) s)) (offset + 1) rest

/-- One iteration of the channel loop of `AudioSource::mix_at`, acting
on the state `(data, channels)` at channel index `ci`:
either push a fresh zero channel (when `ci ≥ channels`) or zero-extend
the existing channel, then add `otherCh` at `offset`. -/
def mixAtStep (offset : ℕ) (st : AudioBuffer × ℕ) (ci : ℕ) (otherCh : List F32) :
    AudioBuffer × ℕ :=
  let (data, channels) := st
  if channels ≤ ci then
    -- `self.data.push(vec![0.0; offset + other_channel.len()]); self.channels += 1;`
    -- followed by the `+=` loop on `self.data[channel_index]`.
    let data := data ++ [List.replicate (offset + otherCh.length) F32.zero]
    (data.set ci (mixInto (data.getD ci []) offset otherCh), channels + 1)
  else
    -- optional `resize` with zeros, then the `+=` loop.
    let ch := data.getD ci []
    let ch :=
      if ch.length < offset + otherCh.length then
        ch ++ List.replicate (offset + otherCh.length - ch.length) F32.zero
      else ch
    (data.set ci (mixInto ch offset otherCh), channels)

/-- The channel loop of `AudioSource::mix_at` over the channels of
`other`, carrying the running channel index. -/
def mixAtLoop (offset : ℕ) (st : AudioBuffer × ℕ) (ci : ℕ) :
    List (List F32) → AudioBuffer × ℕ
  | [] => st
  | otherCh :: rest => mixAtLoop offset (mixAtStep offset st ci otherCh) (ci + 1) rest

/-- `AudioSource::mix_at(other, offset)`. -/
def mix_at (s : AudioSource) (other : AudioSource) (offset : ℕ) : AudioSource :=
  let (data, channels) := mixAtLoop offset (s.data, s.channels) 0 other.data
  ⟨s.sample_rate, channels, data⟩

end AudioSource

/-- The `end_sample` bound of the per-chunk streaming loop of
`Mixer::mix` (`src/mixing/mixer.rs`):
`(start_sample + chunk_size).min(output.data[0].len())` — like
`AudioSource::samples` this indexes channel 0 unconditionally, so the
access is modelled as an `Option`. -/
def mixerEndSampleRead (output : AudioSource) (start_sample chunk_size : ℕ) : Option ℕ :=
  output.data.head?.map (fun ch0 => min (start_sample + chunk_size) ch0.length)

/-! ## Regions (`src/mixing/region/buffer_region.rs`,
`src/mixing/traits/region.rs`) -/

/-- `BufferRegion`. -/
structure BufferRegion where
  id : ℕ
  start_time : Beats
  duration : Beats
  samples_per_beat : ℚ
  source : Option AudioSource

namespace BufferRegion

/-- `Region::end_time` for `BufferRegion`: `start_time + duration`. -/
def end_time (r : BufferRegion) : Beats := r.start_time + r.duration

/-- `Region::is_active_at(start, end)` (default trait method):
`(start >= self.start_time() && start <= self.end_time()) ||
 (end >= self.start_time() && end <= self.end_time())`. -/
def is_active_at (r : BufferRegion) (start end_ : Beats) : Bool :=
  (decide (start ≥ r.start_time) && decide (start ≤ r.end_time)) ||
    (decide (end_ ≥ r.start_time) && decide (end_ ≤ r.end_time))

end BufferRegion

/-! ## Buffer track (`src/mixing/track/buffer_track.rs`) -/

/-- `AudioResampler` (`src/audio_engine/audio_utils/resampler.rs`): only
the constructor-fixed input chunk size matters to the properties below;
the FFT resampling primitive behind it is an external black box. -/
structure AudioResampler where
  chunk_size : ℕ
  deriving DecidableEq

/-- `AudioResampler::new(chunk_size)`. -/
def AudioResampler.new (chunk_size : ℕ) : AudioResampler := ⟨chunk_size⟩

/-- The fields of `BufferTrack` involved in `prepare`. -/
structure BufferTrack where
  id : ℕ
  channels : ℕ
  regions : List BufferRegion
  resamplers : List AudioResampler
  residual_samples : ℚ

namespace BufferTrack

/-- `BufferTrack::prepare(chunk_size, sample_rate, tempo)` — the
resampler bookkeeping (graph preparation is a per-node no-op for the
built-in nodes).  `Vec::resize_with(n, f)` truncates to `n` or extends
with fresh `f()` values; the subsequent loop pushes one further
resampler per region, sized `beats_as_samples(samples_per_beat,
region.start_time)`. -/
def prepare (t : BufferTrack) (_chunk_size : Beats) (sample_rate : ℕ)
    (_tempo : Beats) : BufferTrack :=
  let rs := t.resamplers.take t.regions.length ++
    List.replicate (t.regions.length - t.resamplers.length)
      (AudioResampler.new (sample_rate / 100))
  let rs := rs ++ t.regions.map
    (fun r => AudioResampler.new (beats_as_samples r.samples_per_beat r.start_time))
  { t with resamplers := rs, residual_samples := 0 }

/-- The `start_sample` computation of `BufferTrack::render_chunk_at`:
`region_playhead.saturating_sub(region_start)` where both operands are
`beats_as_samples(region.samples_per_beat, ·)` of the playhead and of
the region start. -/
def startSample (samples_per_beat playhead start_time : Beats) : ℕ :=
  beats_as_samples samples_per_beat playhead - beats_as_samples samples_per_beat start_time

/-- The `end_sample` computation of `BufferTrack::render_chunk_at`:
`(start_sample + region_chunk_size).clamp(0, clipped_samples.round() as usize)
  .min(region_source.data[0].len())`
(`clamp(0, hi)` on `usize` is `min · hi`).  `clipped_samples` is
`region.duration() * region.samples_per_beat` and `region_chunk_size`
is the residual-adjusted chunk size in region samples. -/
def endSample (start_sample region_chunk_size : ℕ) (duration samples_per_beat : Beats)
    (src_len : ℕ) : ℕ :=
  min (min (start_sample + region_chunk_size)
        (rustRound (duration * samples_per_beat)).toNat)
    src_len

end BufferTrack

/-! ## Values and types (`src/graph/value/value_type.rs`,
`src/graph/value/value.rs`, `src/graph/value/value_impl.rs`) -/

/-- `Type` (`value_type.rs`).  Named `Ty` because `Type` is reserved. -/
inductive Ty where
  | int
  | float
  | array (t : Ty)
  | none
  deriving DecidableEq

/-- `Value` (`value.rs`). -/
inductive Value where
  | Float (s : F32)
  | Array (vs : List Value)

mutual

/-- Decidable equality for the nested inductive `Value`. -/
def Value.decEq : (a b : Value) → Decidable (a = b)
  | .Float x, .Float y =>
      if h : x = y then .isTrue (by rw [h]) else .isFalse (by simpa using h)
  | .Float _, .Array _ => .isFalse (by intro h; cases h)
  | .Array _, .Float _ => .isFalse (by intro h; cases h)
  | .Array xs, .Array ys =>
      match Value.decEqList xs ys with
      | .isTrue h => .isTrue (by rw [h])
      | .isFalse h => .isFalse (by intro hh; cases hh; exact h rfl)

/-- Decidable equality for lists of `Value`. -/
def Value.decEqList : (xs ys : List Value) → Decidable (xs = ys)
  | [], [] => .isTrue rfl
  | [], _ :: _ => .isFalse (by intro h; cases h)
  | _ :: _, [] => .isFalse (by intro h; cases h)
  | x :: xs, y :: ys =>
      match Value.decEq x y with
      | .isFalse h => .isFalse (by intro hh; cases hh; exact h rfl)
      | .isTrue h1 =>
        match Value.decEqList xs ys with
        | .isTrue h2 => .isTrue (by rw [h1, h2])
        | .isFalse h2 => .isFalse (by intro hh; cases hh; exact h2 rfl)

end

instance : DecidableEq Value := Value.decEq

namespace Value

/-- `Value::get_type`. -/
def get_type : Value → Ty
  | Float _ => .float
  | Array [] => .array .float
  | Array (v :: _) => .array v.get_type

/-- `Value::get_shape`. -/
def get_shape : Value → List ℕ
  | Float _ => []
  | Array [] => [0]
  | Array (v :: tl) => (v :: tl).length :: v.get_shape

mutual

/-- `Value::resize_val(shape)`.  `shape[0]` on an empty shape is an
out-of-bounds index (panic) in the source, modelled as `none`; in the
length-1 branch the source resizes each of the `shape[0]` identical
clones, which is the same as resizing the single element once and
replicating the result. -/
def resize_val (v : Value) (shape : List ℕ) : Option Value :=
  match v with
  | Float _ => some v
  | Array vec =>
    match shape with
    | [] => none
    | s0 :: rest =>
      if vec.length = s0 then
        (resizeList vec rest).map Array
      else
        match vec with
        | [x] => (resize_val x rest).map (fun r => Array (List.replicate s0 r))
        | _ => none
termination_by sizeOf v

/-- The element-wise resize of the kept (or replicated) vector inside
`Value::resize_val`, failing as soon as one element fails. -/
def resizeList (vec : List Value) (shape : List ℕ) : Option (List Value) :=
  match vec with
  | [] => some []
  | x :: xs =>
    match resize_val x shape with
    | none => none
    | some r => (resizeList xs shape).map (fun rs => r :: rs)
termination_by sizeOf vec

end

/-- The nested-array constant built by the `Float` case of
`Value::reshape`: the source fills the innermost dimension with the
scalar and wraps outward from the back of the shape, which produces
exactly this shape-directed nest. -/
def fillShape (s : F32) : List ℕ → Value
  | [] => Float s
  | d :: rest => Array (List.replicate d (fillShape s rest))

/-- The wrapping loop of the `Array` case of `Value::reshape`:
`new_vec = vec![Value::Array(new_vec)]`, `k` times. -/
def wrapN : ℕ → List Value → List Value
  | 0, vec => vec
  | k + 1, vec => wrapN k [Array vec]

/-- `Value::reshape(v, shape)`. -/
def reshape (v : Value) (shape : List ℕ) : Option Value :=
  match v with
  | Float s => if shape.isEmpty then some (Float s) else some (fillShape s shape)
  | Array vec =>
    let vec_shape := (Array vec).get_shape
    if shape.length < vec_shape.length then none
    else resize_val (Array (wrapN (shape.length - vec_shape.length) vec)) shape

/-- Whether a value is an `Array`. -/
def isArr : Value → Bool
  | Array _ => true
  | Float _ => false

/-- The vector of an `Array` value (`[]` for a `Float`, used only under
an `isArr` guard). -/
def unArr : Value → List Value
  | Array vs => vs
  | Float _ => []

/-- One round of `next()` on all iterators of the lock-step loop of
`Value::recurse_op`: `none` when some iterator is exhausted, otherwise
the heads and the advanced iterators. -/
def headsTails : List (List Value) → Option (List Value × List (List Value))
  | [] => some ([], [])
  | [] :: _ => .none
  | (v :: vtl) :: rest =>
    match headsTails rest with
    | .none => .none
    | some (hs, ts) => some (v :: hs, vtl :: ts)

theorem headsTails_sizeOf_le {vecss : List (List Value)} {hs ts}
    (h : headsTails vecss = some (hs, ts)) :
    sizeOf hs ≤ sizeOf vecss ∧ sizeOf ts ≤ sizeOf vecss := by
  induction vecss generalizing hs ts with
  | nil => simp [headsTails] at h; obtain ⟨rfl, rfl⟩ := h; simp
  | cons x rest ih =>
    match x with
    | [] => simp [headsTails] at h
    | v :: vtl =>
      simp only [headsTails] at h
      match hr : headsTails rest with
      | .none => rw [hr] at h; simp at h
      | some (hs', ts') =>
        rw [hr] at h
        simp only [Option.some.injEq, Prod.mk.injEq] at h
        obtain ⟨h1, h2⟩ := h
        have := ih hr
        subst h1 h2
        simp only [List.cons.sizeOf_spec]
        omega

theorem headsTails_sizeOf_lt {x : List Value} {rest : List (List Value)} {hs ts}
    (h : headsTails (x :: rest) = some (hs, ts)) :
    sizeOf hs < sizeOf (x :: rest) ∧ sizeOf ts < sizeOf (x :: rest) := by
  match x with
  | [] => simp [headsTails] at h
  | v :: vtl =>
    simp only [headsTails] at h
    match hr : headsTails rest with
    | .none => rw [hr] at h; simp at h
    | some (hs', ts') =>
      rw [hr] at h
      simp only [Option.some.injEq, Prod.mk.injEq] at h
      obtain ⟨h1, h2⟩ := h
      have := headsTails_sizeOf_le hr
      subst h1 h2
      simp only [List.cons.sizeOf_spec]
      omega

theorem sizeOf_map_unArr_le (args : List Value) (h : ∀ a ∈ args, isArr a = true) :
    sizeOf (args.map unArr) + args.length ≤ sizeOf args := by
  induction args with
  | nil => simp
  | cons a l ih =>
    have ha : isArr a = true := h a (by simp)
    have hl := ih (fun x hx => h x (by simp [hx]))
    match a, ha with
    | Array vs, _ =>
      simp only [List.map, List.cons.sizeOf_spec, List.length_cons, unArr,
        Value.Array.sizeOf_spec]
      omega

mutual

/-- `Value::recurse_op(args, f)`.  The `Type::Int` case is absent from
the source's match (it is unreachable: `get_type` never yields `Int`);
it is mapped to `none` together with `Type::None`. -/
def recurse_op (args : List Value) (f : List F32 → F32) : Option Value :=
  if hemp : args.isEmpty then .none
  else
    let first_type := (args.headD (Float F32.zero)).get_type
    if ¬ (args.all (fun a => a.get_type = first_type)) then .none
    else
      let first_shape := (args.headD (Float F32.zero)).get_shape
      if ¬ (args.all (fun a => a.get_shape = first_shape)) then .none
      else
        match first_type with
        | .float =>
          let samples := args.filterMap
            (fun a => match a with | Float s => some s | _ => .none)
          if samples.isEmpty then .none else some (Float (f samples))
        | .array _ =>
          if hall : args.all (fun a => isArr a) then
            some (Array (recurse_loop (args.map unArr) f))
          else .none
        | _ => .none
termination_by sizeOf args
decreasing_by
  have hlen : 1 ≤ args.length := by
    cases args with
    | nil => simp [List.isEmpty] at hemp
    | cons a l => simp
  have := sizeOf_map_unArr_le args (by simpa [List.all_eq_true] using hall)
  omega

/-- The lock-step iterator loop of the `Array` case of
`Value::recurse_op`: exhaustion of any iterator, or failure of the
inner recursion (the `break`), both return the elements accumulated so
far. -/
def recurse_loop (vecss : List (List Value)) (f : List F32 → F32) : List Value :=
  match vecss with
  | [] => []   -- unreachable: the caller passes one vector per argument
  | x :: rest =>
    match hht : headsTails (x :: rest) with
    | .none => []
    | some (heads, tails) =>
      match recurse_op heads f with
      | .none => []
      | some v => v :: recurse_loop tails f
termination_by sizeOf vecss
decreasing_by
  · exact (headsTails_sizeOf_lt hht).1
  · exact (headsTails_sizeOf_lt hht).2

end

/-- The target-shape computation of `Value::apply_op`: fold over the
argument shapes; a longer shape replaces the target, an equal-length
shape raises each dimension to the maximum. -/
def targetShape (shapes : List (List ℕ)) : List ℕ :=
  shapes.foldl
    (fun target shape =>
      if target.length < shape.length then shape
      else if shape.length = target.length then target.zipWith max shape
      else target)
    []

/-- `Value::apply_op(args, f)`: reshape every argument to the target
shape, silently dropping (`filter_map`) the ones whose reshape fails,
then apply `recurse_op` to the survivors. -/
def apply_op (args : List Value) (f : List F32 → F32) : Option Value :=
  let shapes := args.map get_shape
  let target := targetShape shapes
  let reshaped := args.filterMap (fun arg => reshape arg target)
  recurse_op reshaped f

/-- The zero-guarded division closure of `impl Div for Value`
(`value_impl.rs`): `|v| if v[1] == 0.0 { 0.0 } else { v[0] / v[1] }`.
An out-of-range slice index (possible when an operand was dropped by
`apply_op`) panics in the source and is modelled by a NaN default. -/
def divOp (v : List F32) : F32 :=
  if F32.eqZero (v.getD 1 F32.nan) then F32.num 0
  else F32.fdiv (v.getD 0 F32.nan) (v.getD 1 F32.nan)

/-- The unguarded division closure `|v| v[0] / v[1]` used by
`impl Div<Sample> for Value` and `impl Div<Value> for Sample`. -/
def rawDivOp (v : List F32) : F32 :=
  F32.fdiv (v.getD 0 F32.nan) (v.getD 1 F32.nan)

/-- The zero-guarded remainder closure of `impl Rem for Value`. -/
def remOp (v : List F32) : F32 :=
  if F32.eqZero (v.getD 1 F32.nan) then F32.num 0
  else F32.frem (v.getD 0 F32.nan) (v.getD 1 F32.nan)

/-- The unguarded remainder closure `|v| v[0] % v[1]` used by
`impl Rem<Sample> for Value` and `impl Rem<Value> for Sample`. -/
def rawRemOp (v : List F32) : F32 :=
  F32.frem (v.getD 0 F32.nan) (v.getD 1 F32.nan)

/-- `impl Div for Value` (Value ÷ Value). -/
def div_vv (a b : Value) : Value :=
  (apply_op [a, b] divOp).getD (Float (F32.num 0))

/-- `impl Div<Sample> for Value` (Value ÷ scalar): a zero scalar
divisor short-circuits to the scalar `0.0`. -/
def div_vs (a : Value) (b : F32) : Value :=
  if F32.eqZero b then Float (F32.num 0)
  else (apply_op [a, Float b] rawDivOp).getD (Float (F32.num 0))

/-- `impl Div<Value> for Sample` (scalar ÷ Value): the zero check only
fires when the divisor is a scalar `Value::Float`. -/
def div_sv (a : F32) (b : Value) : Value :=
  if (match b with | Float x => F32.eqZero x | _ => false) then Float (F32.num 0)
  else (apply_op [Float a, b] rawDivOp).getD (Float (F32.num 0))

/-- `impl Rem for Value` (Value % Value). -/
def rem_vv (a b : Value) : Value :=
  (apply_op [a, b] remOp).getD (Float (F32.num 0))

/-- `impl Rem<Sample> for Value` (Value % scalar). -/
def rem_vs (a : Value) (b : F32) : Value :=
  if F32.eqZero b then Float (F32.num 0)
  else (apply_op [a, Float b] rawRemOp).getD (Float (F32.num 0))

/-- `impl Rem<Value> for Sample` (scalar % Value). -/
def rem_sv (a : F32) (b : Value) : Value :=
  if (match b with | Float x => F32.eqZero x | _ => false) then Float (F32.num 0)
  else (apply_op [Float a, b] rawRemOp).getD (Float (F32.num 0))

/-- `Value::from_buffer(buffer)`: outer array of channels, inner arrays
of samples. -/
def from_buffer (buffer : AudioBuffer) : Value :=
  Array (buffer.map (fun channel => Array (channel.map Float)))

end Value

/-! ## Graph (`src/graph/connector.rs`, `src/graph/graph.rs`,
`src/graph/built_in/empty_node.rs`,
`src/graph/built_in/buffer_output_node.rs`)

Node ids (128-bit UUIDs) are modelled as `ℕ`. -/

/-- `Connector`.  The source field `from` is a reserved word in Lean,
hence `from_node` / `to_node`. -/
structure Connector where
  from_node : ℕ
  from_param : String
  to_node : ℕ
  to_param : String
  deriving DecidableEq

/-- The initial `in_degree` map of `Graph::topological_sort` as a total
function: every node starts at `0` and every connector increments its
target (`entry(to).or_insert(0) += 1`).  Degrees are carried in `ℤ`;
in the regimes proved below they never go negative (`usize` in the
source). -/
def inDegree0 (conns : List Connector) : ℕ → ℤ :=
  fun n => ((conns.filter (fun c => c.to_node = n)).length : ℤ)

/-- The `adj_list` map as a total function: the successors of `n` in
connector order.  A key miss of the source's `adj_list.get(&node)`
coincides with the empty list here. -/
def adjList (conns : List Connector) : ℕ → List ℕ :=
  fun n => (conns.filter (fun c => c.from_node = n)).map (fun c => c.to_node)

/-- The key set of the `in_degree` map in insertion order: all node ids
first, then each connector target not already present.  (Hash-map
iteration order is unspecified in the source; only the membership and
the degrees matter to the results below.) -/
def degKeys (nodes : List ℕ) (conns : List Connector) : List ℕ :=
  conns.foldl (fun ks c => if c.to_node ∈ ks then ks else ks ++ [c.to_node]) nodes

/-- The inner neighbour loop of `Graph::topological_sort`: decrement
each successor's degree and push it on the queue when it reaches zero.
The source's `in_degree.get_mut(&neighbor)` can never miss: every
connector target received an entry at registration. -/
def processNeighbors : List ℕ → (ℕ → ℤ) → List ℕ → ((ℕ → ℤ) × List ℕ)
  | [], deg, queue => (deg, queue)
  | m :: rest, deg, queue =>
    let deg' : ℕ → ℤ := fun x => if x = m then deg x - 1 else deg x
    let queue' := if deg m - 1 = 0 then queue ++ [m] else queue
    processNeighbors rest deg' queue'

/-- The main `while let Some(node) = queue.pop_front()` loop of
`Graph::topological_sort`, with a fuel parameter (the caller passes
more fuel than the loop can ever consume, see
`kahnLoop_no_fuel_exhaustion` reasoning in the proofs below). -/
def kahnLoop (adj : ℕ → List ℕ) : ℕ → List ℕ → (ℕ → ℤ) → List ℕ → List ℕ
  | _, [], _, sorted => sorted
  | 0, _ :: _, _, sorted => sorted
  | fuel + 1, n :: rest, deg, sorted =>
    let p := processNeighbors (adj n) deg rest
    kahnLoop adj fuel p.2 p.1 (sorted ++ [n])

/-- `Graph::topological_sort` over a node-id list and connector list. -/
def kahnSort (nodes : List ℕ) (conns : List Connector) : Except String (List ℕ) :=
  let deg := inDegree0 conns
  let keys := degKeys nodes conns
  let queue := keys.filter (fun n => deg n = 0)
  let sorted := kahnLoop (adjList conns) (nodes.length + conns.length + 1) queue deg []
  if sorted.length = nodes.length then .ok sorted else .error "Cycle detected"

/-- The state of a built-in node (`src/graph/built_in`): the last set
input and the last produced output.  The node universe of the embedded
module is closed over its two built-ins, as the spec recommends. -/
inductive NodeImpl where
  | empty (input output : Option Value)
  | bufferOutput (input output : Option Value)
  deriving DecidableEq

/-- A graph node: id plus behaviour/state. -/
structure GNode where
  id : ℕ
  impl : NodeImpl
  deriving DecidableEq

namespace GNode

/-- `Node::get_output`: both built-ins answer only to the key
`"output"` (`BufferOutputNode` despite its input being named
`"buffer"`). -/
def get_output (n : GNode) (key : String) : Option Value :=
  match n.impl with
  | .empty _ out => if key = "output" then out else none
  | .bufferOutput _ out => if key = "output" then out else none

/-- `Node::set_input`: `EmptyNode` accepts `"input"`, `BufferOutputNode`
accepts `"buffer"`; other keys are ignored. -/
def set_input (n : GNode) (key : String) (v : Value) : GNode :=
  match n.impl with
  | .empty _ out =>
      if key = "input" then { n with impl := .empty (some v) out } else n
  | .bufferOutput _ out =>
      if key = "buffer" then { n with impl := .bufferOutput (some v) out } else n

end GNode

/-- The errors that can escape `Graph::process` (string errors and the
typed `NodeInputTypeError` of the output node are folded into one
enumeration). -/
inductive GraphErr where
  | cycle                       -- "Cycle detected"
  | nodeInputType (node_id : ℕ) -- NodeInputTypeError
  | outputNotFound              -- "Output not found"
  | outputNotBuffer             -- "Output wasn't a buffer"
  | outputNodeNotFound          -- "Output node not found"
  deriving DecidableEq

/-- `Node::process` of the two built-ins.  `EmptyNode` passes its input
through (zero buffer of the chunk length when absent) and always
succeeds; `BufferOutputNode` requires an `Array` input, publishing a
zero buffer and returning `NodeInputTypeError` otherwise.  (The zero
buffer `Value::Buffer(vec![vec![0.0; ..]; channels])` of the older
revision corresponds to the nested-array form `Value::from_buffer`.) -/
def NodeImpl.process (impl : NodeImpl) (nodeId : ℕ)
    (_sample_rate channels chunk_start chunk_end : ℕ) : NodeImpl × Option GraphErr :=
  match impl with
  | .empty inp _ =>
    let buffer :=
      match inp with
      | some v => v
      | none =>
          Value.from_buffer
            (List.replicate channels (List.replicate (chunk_end - chunk_start) F32.zero))
    (.empty inp (some buffer), none)
  | .bufferOutput inp _ =>
    match inp with
    | some (Value.Array arr) => (.bufferOutput inp (some (Value.Array arr)), none)
    | _ =>
      let buffer :=
        Value.from_buffer
          (List.replicate channels (List.replicate (chunk_end - chunk_start) F32.zero))
      (.bufferOutput inp (some buffer), some (.nodeInputType nodeId))

/-- `Graph`. -/
structure Graph where
  nodes : List GNode
  connections : List Connector
  input_node : ℕ
  output_node : ℕ

namespace Graph

/-- `Graph::get_node`: first node with the given id. -/
def get_node (g : Graph) (id : ℕ) : Option GNode :=
  g.nodes.find? (fun n => n.id = id)

/-- Replace the first node with the given id (`get_node_mut` then
mutation). -/
def setNode : List GNode → ℕ → GNode → List GNode
  | [], _, _ => []
  | n :: rest, id, nn => if n.id = id then nn :: rest else n :: setNode rest id nn

/-- `Graph::topological_sort`. -/
def topological_sort (g : Graph) : Except String (List ℕ) :=
  kahnSort (g.nodes.map GNode.id) g.connections

/-- One iteration of step 2 of `Graph::process`: collect the values of
the incoming connectors from the current node states, set them as
inputs, then run the node's `process`.  An absent node id is skipped
(`if let Some(node) = ...`). -/
def processStep (g : Graph) (sr ch cs ce : ℕ) (node_id : ℕ) : Graph × Option GraphErr :=
  let input_values :=
    (g.connections.filter (fun c => c.to_node = node_id)).filterMap
      (fun c =>
        (g.get_node c.from_node).bind
          (fun origin => (origin.get_output c.from_param).map (fun v => (c.to_param, v))))
  match g.get_node node_id with
  | none => (g, none)
  | some node =>
    let node := input_values.foldl (fun n p => n.set_input p.1 p.2) node
    let pr := node.impl.process node.id sr ch cs ce
    ({ g with nodes := setNode g.nodes node_id { node with impl := pr.1 } }, pr.2)

/-- Step 2 of `Graph::process` over the sorted node ids, propagating
the first node error. -/
def processNodes (g : Graph) (sr ch cs ce : ℕ) : List ℕ → Except GraphErr Graph
  | [] => .ok g
  | id :: rest =>
    let pr := g.processStep sr ch cs ce id
    match pr.2 with
    | some e => .error e
    | none => pr.1.processNodes sr ch cs ce rest

/-- `Graph::process(sample_rate, channels, chunk_start, chunk_end)`.
After all nodes have processed, the source reads the output node's
`"buffer"` output and matches it against a `Value::Buffer` variant that
the cited `Value` type does not possess, so any present value falls to
the `_ => Err("Output wasn't a buffer")` arm; both output arms are
modelled as written. -/
def process (g : Graph) (sample_rate channels chunk_start chunk_end : ℕ) :
    Except GraphErr AudioSource :=
  match g.topological_sort with
  | .error _ => .error .cycle
  | .ok sorted =>
    match g.processNodes sample_rate channels chunk_start chunk_end sorted with
    | .error e => .error e
    | .ok g' =>
      match g'.get_node g'.output_node with
      | none => .error .outputNodeNotFound
      | some node =>
        match node.get_output "buffer" with
        | none => .error .outputNotFound
        | some _ => .error .outputNotBuffer

end Graph

/-! ## Auxiliary notions used in the statements and proofs -/

/-- Decidable equality of `Except` results (used to evaluate concrete
runs of the embedded functions). -/
instance exceptDecEq {ε α : Type} [DecidableEq ε] [DecidableEq α] :
    DecidableEq (Except ε α)
  | .ok a, .ok b =>
    if h : a = b then .isTrue (by rw [h])
    else .isFalse (by intro hh; cases hh; exact h rfl)
  | .ok _, .error _ => .isFalse (by intro h; cases h)
  | .error _, .ok _ => .isFalse (by intro h; cases h)
  | .error a, .error b =>
    if h : a = b then .isTrue (by rw [h])
    else .isFalse (by intro hh; cases hh; exact h rfl)

/-- The edge relation induced by a connector list. -/
def Edge (conns : List Connector) (a b : ℕ) : Prop :=
  ∃ c ∈ conns, c.from_node = a ∧ c.to_node = b

/-- The number of connectors into `n` whose source node has not yet
been emitted — the meaning of the `in_degree` entries during Kahn's
algorithm. -/
def countIncoming (conns : List Connector) (n : ℕ) (emitted : List ℕ) : ℕ :=
  (conns.filter (fun c => decide (c.to_node = n ∧ c.from_node ∉ emitted))).length

/-- The loop invariant of the embedded Kahn's algorithm: the emitted
and queued nodes are distinct graph nodes; the degree map counts the
connectors whose source is not yet emitted; nodes with no pending
incoming connector are scheduled; emitted nodes respect the connector
order; queued nodes have no pending incoming connector. -/
def KahnInv (nodes : List ℕ) (conns : List Connector) (queue : List ℕ)
    (deg : ℕ → ℤ) (sorted : List ℕ) : Prop :=
  (sorted ++ queue).Nodup ∧
  (∀ n ∈ sorted, n ∈ nodes) ∧
  (∀ n ∈ queue, n ∈ nodes) ∧
  (∀ n, deg n = (countIncoming conns n sorted : ℤ)) ∧
  (∀ n ∈ nodes, countIncoming conns n sorted = 0 → n ∈ sorted ∨ n ∈ queue) ∧
  (∀ c ∈ conns, c.to_node ∈ sorted →
    c.from_node ∈ sorted ∧ sorted.indexOf c.from_node < sorted.indexOf c.to_node) ∧
  (∀ n ∈ queue, countIncoming conns n sorted = 0)

/-- A value is regular of the given shape: each level has exactly the
announced number of children and every leaf sits at full depth. -/
inductive HasShape : Value → List ℕ → Prop
  | float (s : F32) : HasShape (.Float s) []
  | array {vs : List Value} {d : ℕ} {rest : List ℕ}
      (hlen : vs.length = d) (hall : ∀ v ∈ vs, HasShape v rest) :
      HasShape (.Array vs) (d :: rest)

/-- The leaf of a value at an index path. -/
def Value.getLeaf? : Value → List ℕ → Option F32
  | .Float s, [] => some s
  | .Array vs, i :: rest => vs[i]?.bind fun w => Value.getLeaf? w rest
  | _, _ => none
termination_by _ path => path.length

/-- A fresh graph as `Graph::new(Box::new(EmptyNode::new_input()))`
builds it — the empty input node (id 0) and the buffer-output node
(id 1) — with the natural connector from the input node's `output`
port to the output node's `buffer` input. -/
def exampleGraph : Graph :=
  ⟨[⟨0, .empty none none⟩, ⟨1, .bufferOutput none none⟩],
    [⟨0, "output", 1, "buffer"⟩], 0, 1⟩

/-- A one-node graph whose single connector is a self-loop. -/
def selfLoopGraph : Graph :=
  ⟨[⟨0, .empty none none⟩], [⟨0, "output", 0, "input"⟩], 0, 0⟩

/-- A freshly constructed track holding a single region (samples per
beat 100, start time 3 beats, duration 4 beats) and no resamplers. -/
def exampleTrack : BufferTrack :=
  ⟨0, 2, [⟨0, 3, 4, 100, none⟩], [], 0⟩

/-- The effect of one existing-channel iteration of `mix_at` on its
channel: zero-extend to `offset + other.length` when shorter, then add
`other` starting at `offset`. -/
def mixChannel (offset : ℕ) (ch other : List F32) : List F32 :=
  AudioSource.mixInto
    (if ch.length < offset + other.length then
      ch ++ List.replicate (offset + other.length - ch.length) F32.zero
    else ch) offset other

/-! # Theorems -/

/-! ## C7 — region activity predicate -/

/-- **C7**: for every region and chunk interval `[start, end]`,
`is_active_at(start, end)` holds exactly when
`(start ≥ region.start ∧ start ≤ region.end) ∨
 (end ≥ region.start ∧ end ≤ region.end)` with
`end_time = start_time + duration`. -/
theorem is_active_at_spec (r : BufferRegion) (start end_ : Beats) :
    r.is_active_at start end_ = true ↔
      ((start ≥ r.start_time ∧ start ≤ r.start_time + r.duration) ∨
        (end_ ≥ r.start_time ∧ end_ ≤ r.start_time + r.duration)) := by
  simp [BufferRegion.is_active_at, BufferRegion.end_time]

/-! ## C10 — `samples()` needs at least one channel -/

/-- **C10**: `AudioSource::samples` unconditionally reads the length of
channel 0 and is therefore only defined for buffers with at least one
channel; `new(sample_rate, 0)` constructs a zero-channel buffer on
which the read (and the analogous `output.data[0]` read in
`Mixer::mix`) is out of bounds. -/
theorem samples_requires_channel (sr : ℕ) :
    (AudioSource.new sr 0).channels = 0 ∧
    (AudioSource.new sr 0).data = [] ∧
    (AudioSource.new sr 0).samplesRead = none ∧
    (∀ st ck, mixerEndSampleRead (AudioSource.new sr 0) st ck = none) ∧
    (∀ s : AudioSource, (AudioSource.samplesRead s).isSome ↔ 1 ≤ s.data.length) := by
  refine ⟨rfl, rfl, rfl, fun st ck => rfl, fun s => ?_⟩
  cases h : s.data <;> simp [AudioSource.samplesRead, h]

/-! ## C9 — beat/sample round trip -/

/-- **C9** counterexample: at tempo 60 and sample rate 2 the
samples-per-beat is 2, yet the round trip of `b = -1` yields `0`
(`(-2.0).round() as usize` saturates at zero), an error of `1`, far
above the claimed bound `0.5 / 2 = 0.25`. -/
theorem beats_roundtrip_counterexample :
    ¬ (|samples_as_beats (mixerSamplesPerBeat 2 60)
          (beats_as_samples (mixerSamplesPerBeat 2 60) (-1)) - (-1)| ≤
        1 / 2 / mixerSamplesPerBeat 2 60) := by
  have h1 : mixerSamplesPerBeat 2 60 = 2 := by norm_num [mixerSamplesPerBeat]
  have h2 : beats_as_samples 2 (-1) = 0 := by
    norm_num [beats_as_samples, rustRound]
  rw [h1, h2]
  norm_num [samples_as_beats]

/-- **C9** amended: for all tempos `t > 0`, sample rates `sr > 0` and
**nonnegative** beat values `b`, the round trip
`samples_as_beats(spb, beats_as_samples(spb, b))` differs from `b` by
at most `0.5 / spb`, where `spb = sr / (t / 60)`. -/
theorem beats_roundtrip_amended (tempo : Beats) (sample_rate : ℕ) (b : Beats)
    (ht : 0 < tempo) (hsr : 0 < sample_rate) (hb : 0 ≤ b) :
    |samples_as_beats (mixerSamplesPerBeat sample_rate tempo)
        (beats_as_samples (mixerSamplesPerBeat sample_rate tempo) b) - b| ≤
      1 / 2 / mixerSamplesPerBeat sample_rate tempo := by
  have hpos : 0 < mixerSamplesPerBeat sample_rate tempo := by
    unfold mixerSamplesPerBeat
    apply div_pos (by exact_mod_cast hsr) (by linarith)
  set spb := mixerSamplesPerBeat sample_rate tempo with hspb
  have hx : 0 ≤ b * spb := mul_nonneg hb hpos.le
  have hflnn : 0 ≤ ⌊b * spb + 1 / 2⌋ := Int.floor_nonneg.2 (by linarith)
  have hn : ((beats_as_samples spb b : ℕ) : ℚ) = ((⌊b * spb + 1 / 2⌋ : ℤ) : ℚ) := by
    unfold beats_as_samples rustRound
    rw [if_pos hx]
    exact_mod_cast congrArg (fun z : ℤ => (z : ℚ)) (Int.toNat_of_nonneg hflnn)
  have hub : ((⌊b * spb + 1 / 2⌋ : ℤ) : ℚ) ≤ b * spb + 1 / 2 := Int.floor_le _
  have hlb : b * spb + 1 / 2 - 1 < ((⌊b * spb + 1 / 2⌋ : ℤ) : ℚ) := Int.sub_one_lt_floor _
  have hdiff : |((⌊b * spb + 1 / 2⌋ : ℤ) : ℚ) - b * spb| ≤ 1 / 2 := by
    rw [abs_le]; constructor <;> linarith
  have hrw : samples_as_beats spb (beats_as_samples spb b) - b =
      (((⌊b * spb + 1 / 2⌋ : ℤ) : ℚ) - b * spb) / spb := by
    unfold samples_as_beats
    rw [hn]
    field_simp
    ring
  rw [hrw, abs_div, abs_of_pos hpos]
  gcongr

/-- Witness for `beats_roundtrip_amended` at tempo 60, sample rate 2,
`b = 3/4` (spb = 2, round trip yields 1, error 1/4 = bound). -/
theorem beats_roundtrip_amended_witness :
    |samples_as_beats (mixerSamplesPerBeat 2 60)
        (beats_as_samples (mixerSamplesPerBeat 2 60) (3 / 4)) - 3 / 4| ≤
      1 / 2 / mixerSamplesPerBeat 2 60 :=
  beats_roundtrip_amended 60 2 (3 / 4) (by norm_num) (by norm_num) (by norm_num)

/-! ## C5 — slice bounds in `render_chunk_at` -/

/-- **C5**: the slice bounds of `BufferTrack::render_chunk_at` are
*not* clamped to `start ≤ end`.  For a region with samples-per-beat
100, start time 0, duration 10 beats but a source of only 50 samples
(the deliberate time-stretch/clip configuration named by the spec), at
playhead 5 beats (where the region is active for the chunk `[5, 7]`)
the computed bounds are `start_sample = 500 > end_sample = 50`, an
invalid (panicking) slice range `500..50`. -/
theorem render_slice_bounds_code_bug :
    BufferRegion.is_active_at ⟨0, 0, 10, 100, none⟩ 5 7 = true ∧
    BufferTrack.startSample 100 5 0 = 500 ∧
    BufferTrack.endSample (BufferTrack.startSample 100 5 0) 200 10 100 50 = 50 ∧
    ¬ BufferTrack.startSample 100 5 0 ≤
        BufferTrack.endSample (BufferTrack.startSample 100 5 0) 200 10 100 50 := by
  have hs : BufferTrack.startSample 100 5 0 = 500 := by
    unfold BufferTrack.startSample beats_as_samples rustRound
    norm_num
    omega
  have he : BufferTrack.endSample 500 200 10 100 50 = 50 := by
    unfold BufferTrack.endSample rustRound
    norm_num
  refine ⟨?_, hs, ?_, ?_⟩
  · simp [BufferRegion.is_active_at, BufferRegion.end_time]
    norm_num
  · rw [hs, he]
  · rw [hs, he]
    omega

/-! ## C6 — resamplers built by `Track::prepare` -/

/-- **C6**: after `prepare(chunk_beats = 2, sample_rate = 48000,
tempo)` on a fresh track with one region (samples-per-beat 100, start
time 3), the track holds **two** resamplers, not one per region: the
`resize_with` closure sizes the first at `sample_rate / 100 = 480` and
the subsequent push loop sizes the second at
`beats_as_samples(samples_per_beat, region.start_time) = 300` — neither
is the `beats_as_samples(samples_per_beat, chunk_beats) = 200` required
by the claim. -/
theorem prepare_resamplers_code_bug :
    (exampleTrack.prepare 2 48000 120).resamplers =
      [AudioResampler.new 480, AudioResampler.new 300] ∧
    exampleTrack.regions.length = 1 ∧
    (exampleTrack.prepare 2 48000 120).resamplers.length ≠ exampleTrack.regions.length ∧
    beats_as_samples 100 2 = 200 ∧
    ∀ r ∈ (exampleTrack.prepare 2 48000 120).resamplers, r.chunk_size ≠ 200 := by
  have h3 : beats_as_samples 100 3 = 300 := by
    unfold beats_as_samples rustRound
    norm_num
    omega
  have h2 : beats_as_samples 100 2 = 200 := by
    unfold beats_as_samples rustRound
    norm_num
    omega
  have hres : (exampleTrack.prepare 2 48000 120).resamplers =
      [AudioResampler.new 480, AudioResampler.new 300] := by
    simp [exampleTrack, BufferTrack.prepare, h3]
  refine ⟨hres, rfl, ?_, h2, ?_⟩
  · rw [hres]
    simp [exampleTrack]
  · rw [hres]
    intro r hr
    simp only [List.mem_cons, List.not_mem_nil, or_false] at hr
    rcases hr with h | h <;> subst h <;> simp [AudioResampler.new]

/-! ## C1 — the graph's output port read -/

/-- **C1**: on the freshly built graph (empty input node feeding the
buffer-output node) every node processes successfully for the chunk,
yet `Graph::process` returns the "Output not found" error rather than
the output buffer: it reads the output node's port `"buffer"`, while
`BufferOutputNode::get_output` only answers to `"output"`. -/
theorem graph_process_output_port_code_bug :
    exampleGraph.topological_sort = .ok [0, 1] ∧
    (exampleGraph.processNodes 48000 2 0 4 [0, 1]).isOk = true ∧
    exampleGraph.process 48000 2 0 4 = .error .outputNotFound := by
  exact ⟨by decide, by decide, by decide⟩

/-! ## C4 — broadcast failure handling of `apply_op` -/

/-- `recurse_op` on an empty argument list fails. -/
theorem recurse_op_nil (f : List F32 → F32) : Value.recurse_op [] f = none := by
  simp [Value.recurse_op]

/-- **C4** counterexample: the argument `Array [4, 5]` has length 2 at
dimension 0, where the broadcast target dimension is 3 — the claim
demands `apply_op` return `None`, but the reshaped argument is silently
dropped (`filter_map`) and `apply_op` happily returns the surviving
first argument mapped through `f`. -/
theorem apply_op_drops_bad_argument :
    Value.get_shape (.Array [.Float (F32.num 4), .Float (F32.num 5)]) = [2] ∧
    Value.targetShape
        (([Value.Array [.Float (F32.num 1), .Float (F32.num 2), .Float (F32.num 3)],
          Value.Array [.Float (F32.num 4), .Float (F32.num 5)]]).map Value.get_shape) =
      [3] ∧
    (2 ≠ 3 ∧ 2 ≠ 1) ∧
    Value.apply_op
        [Value.Array [.Float (F32.num 1), .Float (F32.num 2), .Float (F32.num 3)],
          Value.Array [.Float (F32.num 4), .Float (F32.num 5)]]
        (fun v => v.headD (F32.num 0)) =
      some (Value.Array [.Float (F32.num 1), .Float (F32.num 2), .Float (F32.num 3)]) := by
  refine ⟨by simp [Value.get_shape], by simp [Value.targetShape, Value.get_shape], by omega, ?_⟩
  simp [Value.apply_op, Value.targetShape, Value.get_shape, Value.reshape, Value.resize_val,
    Value.resizeList, Value.recurse_op, Value.recurse_loop, Value.headsTails,
    Value.get_type, Value.wrapN, Value.isArr, Value.unArr]

/-- **C4** amended: an argument whose reshape to the broadcast target
fails is silently dropped rather than failing the operation; `apply_op`
returns `None` when *every* argument fails to reshape. -/
theorem apply_op_none_of_all_reshape_fail (args : List Value) (f : List F32 → F32)
    (h : ∀ arg ∈ args, Value.reshape arg (Value.targetShape (args.map Value.get_shape)) = none) :
    Value.apply_op args f = none := by
  unfold Value.apply_op
  show Value.recurse_op
      (args.filterMap fun arg =>
        Value.reshape arg (Value.targetShape (args.map Value.get_shape))) f = none
  rw [List.filterMap_eq_nil_iff.mpr h]
  exact recurse_op_nil f

/-- Witness for `apply_op_none_of_all_reshape_fail`: with shapes
`[2,3]` and `[3,2]` the broadcast target is `[3,3]` and both reshapes
fail (2 ≠ 3 and 2 ≠ 1 at the mismatching dimension), so `apply_op`
returns `None`. -/
theorem apply_op_none_of_all_reshape_fail_witness :
    Value.apply_op
        [Value.Array [Value.Array [.Float (F32.num 1), .Float (F32.num 2), .Float (F32.num 3)],
            Value.Array [.Float (F32.num 4), .Float (F32.num 5), .Float (F32.num 6)]],
          Value.Array [Value.Array [.Float (F32.num 1), .Float (F32.num 2)],
            Value.Array [.Float (F32.num 3), .Float (F32.num 4)],
            Value.Array [.Float (F32.num 5), .Float (F32.num 6)]]]
        (fun v => v.headD (F32.num 0)) = none := by
  apply apply_op_none_of_all_reshape_fail
  intro arg harg
  simp only [List.mem_cons, List.not_mem_nil, or_false] at harg
  rcases harg with h | h <;> subst h <;>
    simp [Value.targetShape, Value.get_shape, Value.reshape, Value.resize_val,
      Value.resizeList, Value.wrapN]

/-! ## C3 — division and modulo by zero -/

/-- Inversion of `HasShape` at the empty shape. -/
theorem hasShape_nil_elim {v : Value} (h : HasShape v []) : ∃ a, v = .Float a := by
  cases h with
  | float a => exact ⟨a, rfl⟩

/-- Inversion of `HasShape` at a nonempty shape. -/
theorem hasShape_cons_elim {v : Value} {d : ℕ} {rest : List ℕ}
    (h : HasShape v (d :: rest)) :
    ∃ vs, v = .Array vs ∧ vs.length = d ∧ ∀ x ∈ vs, HasShape x rest := by
  cases h with
  | array hlen hall => exact ⟨_, rfl, hlen, hall⟩

/-- `getLeaf?` on a scalar at the root path. -/
theorem getLeaf?_float_nil (a : F32) : Value.getLeaf? (.Float a) [] = some a := by
  rw [Value.getLeaf?.eq_def]

/-- `getLeaf?` on a scalar at a nonempty path. -/
theorem getLeaf?_float_cons (a : F32) (i : ℕ) (p : List ℕ) :
    Value.getLeaf? (.Float a) (i :: p) = none := by
  rw [Value.getLeaf?.eq_def]

/-- `getLeaf?` on an array at the root path. -/
theorem getLeaf?_array_nil (vs : List Value) : Value.getLeaf? (.Array vs) [] = none := by
  rw [Value.getLeaf?.eq_def]

/-- `getLeaf?` on an array at a nonempty path descends into the indexed
element. -/
theorem getLeaf?_array_cons (vs : List Value) (i : ℕ) (p : List ℕ) :
    Value.getLeaf? (.Array vs) (i :: p) =
      vs[i]?.bind fun w => Value.getLeaf? w p := by
  rw [Value.getLeaf?.eq_def]

/-- Two values of one regular shape have equal `get_shape` and
`get_type`. -/
theorem hasShape_congr :
    ∀ (s : List ℕ) (v w : Value), HasShape v s → HasShape w s →
      Value.get_shape v = Value.get_shape w ∧ Value.get_type v = Value.get_type w := by
  intro s
  induction s with
  | nil =>
    intro v w hv hw
    obtain ⟨a, rfl⟩ := hasShape_nil_elim hv
    obtain ⟨b, rfl⟩ := hasShape_nil_elim hw
    exact ⟨rfl, rfl⟩
  | cons d rest ih =>
    intro v w hv hw
    obtain ⟨vs, rfl, hlenv, hallv⟩ := hasShape_cons_elim hv
    obtain ⟨ws, rfl, hlenw, hallw⟩ := hasShape_cons_elim hw
    cases vs with
    | nil =>
      have hw0 : ws = [] := by
        have h0 : ws.length = 0 := by rw [hlenw, ← hlenv]; rfl
        simpa using h0
      subst hw0
      exact ⟨rfl, rfl⟩
    | cons v0 vtl =>
      cases ws with
      | nil =>
        exfalso
        rw [← hlenv] at hlenw
        simp at hlenw
      | cons w0 wtl =>
        have h0 := ih v0 w0 (hallv v0 (by simp)) (hallw w0 (by simp))
        have hlen : (v0 :: vtl).length = (w0 :: wtl).length := by
          rw [hlenv, hlenw]
        refine ⟨?_, ?_⟩
        · simp only [Value.get_shape, h0.1]
          rw [hlen]
        · simp only [Value.get_type, h0.2]

/-- Element-wise identity of `resizeList` when every element resizes to
itself. -/
theorem resizeList_id (vec : List Value) (s : List ℕ)
    (h : ∀ x ∈ vec, Value.resize_val x s = some x) :
    Value.resizeList vec s = some vec := by
  induction vec with
  | nil => rw [Value.resizeList]
  | cons x xs ih =>
    rw [Value.resizeList]
    rw [h x (by simp), ih (fun y hy => h y (by simp [hy]))]
    rfl

/-- A value of regular shape `s` is left unchanged by `resize_val s`. -/
theorem hasShape_resize_id : ∀ {v : Value} {s : List ℕ}, HasShape v s →
    Value.resize_val v s = some v := by
  intro v s h
  induction h with
  | float a => rw [Value.resize_val.eq_def]
  | array hlen hall ih =>
    rw [Value.resize_val.eq_def]
    dsimp only
    rw [if_pos hlen, resizeList_id _ _ ih]
    rfl

/-- A regular value reshaped to its own shape is unchanged. -/
theorem reshape_id {v : Value} (h : HasShape v (Value.get_shape v)) :
    Value.reshape v (Value.get_shape v) = some v := by
  cases v with
  | Float s => rw [Value.reshape]; simp [Value.get_shape]
  | Array vec =>
    rw [Value.reshape]
    simp only [lt_irrefl, if_false, Nat.sub_self, Value.wrapN]
    exact hasShape_resize_id h

theorem zipWith_max_self (l : List ℕ) : l.zipWith max l = l := by
  induction l with
  | nil => rfl
  | cons a t ih => simp [ih]

/-- The broadcast target of two equal shapes is that shape. -/
theorem targetShape_pair (s : List ℕ) : Value.targetShape [s, s] = s := by
  cases s with
  | nil => rfl
  | cons a t =>
    simp [Value.targetShape, zipWith_max_self]

/-- `recurse_op` on two scalars applies `f` to the pair. -/
theorem recurse_op_float_pair (a b : F32) (f : List F32 → F32) :
    Value.recurse_op [.Float a, .Float b] f = some (.Float (f [a, b])) := by
  simp [Value.recurse_op, Value.get_type, Value.get_shape]

/-- `recurse_op` on two arrays of equal type and shape descends into
the lock-step loop. -/
theorem recurse_op_array_pair (vs ws : List Value) (f : List F32 → F32)
    (hty : Value.get_type (.Array ws) = Value.get_type (.Array vs))
    (hsh : Value.get_shape (.Array ws) = Value.get_shape (.Array vs)) :
    Value.recurse_op [.Array vs, .Array ws] f =
      some (.Array (Value.recurse_loop [vs, ws] f)) := by
  obtain ⟨t, ht⟩ : ∃ t, Value.get_type (.Array vs) = .array t := by
    cases vs <;> exact ⟨_, rfl⟩
  rw [Value.recurse_op]
  simp [hty, hsh, ht, Value.isArr, Value.unArr]

/-- Characterisation of the lock-step loop on two parallel vectors all
of whose pairs recurse successfully. -/
theorem recurse_loop_pair_spec (f : List F32 → F32) (C : Value → Value → Value → Prop) :
    ∀ (vs ws : List Value), vs.length = ws.length →
      (∀ v ∈ vs, ∀ w ∈ ws, ∃ r, Value.recurse_op [v, w] f = some r ∧ C v w r) →
      (Value.recurse_loop [vs, ws] f).length = vs.length ∧
        ∀ (i : ℕ) (v w : Value), vs[i]? = some v → ws[i]? = some w →
          ∃ r, (Value.recurse_loop [vs, ws] f : List Value)[i]? = some r ∧ C v w r := by
  intro vs
  induction vs with
  | nil =>
    intro ws hlen _
    have hw0 : ws = [] := by simpa using hlen.symm
    subst hw0
    constructor
    · simp [Value.recurse_loop, Value.headsTails]
    · intro i v w hv _
      simp at hv
  | cons v vtl ih =>
    intro ws hlen hc
    cases ws with
    | nil => simp at hlen
    | cons w wtl =>
      obtain ⟨r, hr, hcr⟩ := hc v (by simp) w (by simp)
      have hrest := ih wtl (by simpa using hlen)
        (fun x hx y hy => hc x (by simp [hx]) y (by simp [hy]))
      have hloop : Value.recurse_loop [v :: vtl, w :: wtl] f =
          r :: Value.recurse_loop [vtl, wtl] f := by
        rw [Value.recurse_loop]
        simp [Value.headsTails, hr]
      rw [hloop]
      refine ⟨by simp [hrest.1], ?_⟩
      intro i x y hx hy
      cases i with
      | zero =>
        simp only [List.getElem?_cons_zero, Option.some.injEq] at hx hy
        subst hx; subst hy
        exact ⟨r, by simp, hcr⟩
      | succ j =>
        simp only [List.getElem?_cons_succ] at hx hy ⊢
        exact hrest.2 j x y hx hy

/-- `recurse_op` on a pair of values of one regular shape succeeds and
applies `f` leaf-wise. -/
theorem recurse_op_pair_leaf (f : List F32 → F32) :
    ∀ (s : List ℕ) (v w : Value), HasShape v s → HasShape w s →
      ∃ r, Value.recurse_op [v, w] f = some r ∧
        ∀ path a b, Value.getLeaf? v path = some a → Value.getLeaf? w path = some b →
          Value.getLeaf? r path = some (f [a, b]) := by
  intro s
  induction s with
  | nil =>
    intro v w hv hw
    obtain ⟨a, rfl⟩ := hasShape_nil_elim hv
    obtain ⟨b, rfl⟩ := hasShape_nil_elim hw
    refine ⟨.Float (f [a, b]), recurse_op_float_pair a b f, ?_⟩
    intro path x y hx hy
    cases path with
    | nil =>
      rw [getLeaf?_float_nil] at hx hy
      simp only [Option.some.injEq] at hx hy
      subst hx; subst hy
      rw [getLeaf?_float_nil]
    | cons i p =>
      rw [getLeaf?_float_cons] at hx
      simp at hx
  | cons d rest ih =>
    intro v w hv hw
    have hcong := hasShape_congr (d :: rest) w v hw hv
    obtain ⟨vs, rfl, hlenv, hallv⟩ := hasShape_cons_elim hv
    obtain ⟨ws, rfl, hlenw, hallw⟩ := hasShape_cons_elim hw
    have hlen : vs.length = ws.length := by rw [hlenv, hlenw]
    have hc : ∀ x ∈ vs, ∀ y ∈ ws,
        ∃ r, Value.recurse_op [x, y] f = some r ∧
          ∀ path a b, Value.getLeaf? x path = some a →
            Value.getLeaf? y path = some b →
            Value.getLeaf? r path = some (f [a, b]) :=
      fun x hx y hy => ih x y (hallv x hx) (hallw y hy)
    obtain ⟨hL, hget⟩ := recurse_loop_pair_spec f _ vs ws hlen hc
    refine ⟨.Array (Value.recurse_loop [vs, ws] f),
      recurse_op_array_pair vs ws f hcong.2 hcong.1, ?_⟩
    intro path a b ha hb
    cases path with
    | nil =>
      rw [getLeaf?_array_nil] at ha
      simp at ha
    | cons i p =>
      cases hvi : vs[i]? with
      | none =>
        rw [getLeaf?_array_cons] at ha
        simp [hvi] at ha
      | some vi =>
        cases hwi : ws[i]? with
        | none =>
          rw [getLeaf?_array_cons] at hb
          simp [hwi] at hb
        | some wi =>
          have ha' : Value.getLeaf? vi p = some a := by
            rw [getLeaf?_array_cons] at ha
            simpa [hvi] using ha
          have hb' : Value.getLeaf? wi p = some b := by
            rw [getLeaf?_array_cons] at hb
            simpa [hwi] using hb
          obtain ⟨r, hri, hcr⟩ := hget i vi wi hvi hwi
          rw [getLeaf?_array_cons]
          simp only [hri]
          exact hcr p a b ha' hb'

/-- **C3** counterexample: in the scalar-with-Value form the zero check
only inspects a *scalar* divisor, so `2.0 / Array([0.0])` broadcasts
the scalar and applies the raw IEEE division to the zero leaf, yielding
`+∞` — and `2.0 % Array([0.0])` yields NaN — not the claimed 0. -/
theorem div_rem_by_zero_counterexample :
    Value.div_sv (F32.num 2) (.Array [.Float (F32.num 0)]) =
      .Array [.Float (F32.inf false)] ∧
    Value.rem_sv (F32.num 2) (.Array [.Float (F32.num 0)]) =
      .Array [.Float F32.nan] ∧
    F32.inf false ≠ F32.num 0 ∧ F32.nan ≠ F32.num 0 := by
  refine ⟨?_, ?_, by simp, by simp⟩ <;>
    simp [Value.div_sv, Value.rem_sv, Value.apply_op, Value.targetShape, Value.get_shape,
      Value.reshape, Value.resize_val, Value.resizeList, Value.recurse_op,
      Value.recurse_loop, Value.headsTails, Value.get_type, Value.wrapN, Value.isArr,
      Value.unArr, Value.fillShape, Value.rawDivOp, Value.rawRemOp, F32.fdiv, F32.frem,
      F32.eqZero]

/-- **C3** amended: a zero divisor leaf yields 0 in the Value-with-Value
forms (for shape-regular operands of equal shape) and whenever the
divisor in the Value-with-scalar or scalar-with-Value form is the
*scalar* zero; the guarantee does not extend to the scalar-with-Value
form with an array divisor containing a zero leaf (see the
counterexample). -/
theorem div_rem_by_zero_amended (v w : Value) (path : List ℕ) (a b : F32)
    (hv : HasShape v (Value.get_shape v)) (hw : HasShape w (Value.get_shape w))
    (hsh : Value.get_shape w = Value.get_shape v)
    (ha : Value.getLeaf? v path = some a) (hb : Value.getLeaf? w path = some b)
    (hz : F32.eqZero b = true) :
    Value.getLeaf? (Value.div_vv v w) path = some (F32.num 0) ∧
    Value.getLeaf? (Value.rem_vv v w) path = some (F32.num 0) ∧
    (∀ x : Value, Value.div_vs x (F32.num 0) = .Float (F32.num 0)) ∧
    (∀ x : Value, Value.rem_vs x (F32.num 0) = .Float (F32.num 0)) ∧
    (∀ y : F32, Value.div_sv y (.Float (F32.num 0)) = .Float (F32.num 0)) ∧
    (∀ y : F32, Value.rem_sv y (.Float (F32.num 0)) = .Float (F32.num 0)) := by
  have hw' : HasShape w (Value.get_shape v) := hsh ▸ hw
  have happ : ∀ g, Value.apply_op [v, w] g = Value.recurse_op [v, w] g := by
    intro g
    unfold Value.apply_op
    show Value.recurse_op
        ([v, w].filterMap fun arg =>
          Value.reshape arg (Value.targetShape ([v, w].map Value.get_shape))) g = _
    have htgt : Value.targetShape ([v, w].map Value.get_shape) = Value.get_shape v := by
      rw [List.map_cons, List.map_cons, List.map_nil, hsh]
      exact targetShape_pair _
    rw [htgt]
    have hrw : Value.reshape w (Value.get_shape v) = some w := by
      rw [← hsh]
      exact reshape_id hw
    simp [List.filterMap, reshape_id hv, hrw]
  have hguard : ∀ opf : List F32 → F32,
      (∀ x y : F32, F32.eqZero y = true → opf [x, y] = F32.num 0) →
      Value.getLeaf? ((Value.apply_op [v, w] opf).getD (.Float (F32.num 0))) path =
        some (F32.num 0) := by
    intro opf hopf
    obtain ⟨r, hr, hleaf⟩ := recurse_op_pair_leaf opf (Value.get_shape v) v w hv hw'
    rw [happ, hr]
    have := hleaf path a b ha hb
    rw [hopf a b hz] at this
    simpa using this
  refine ⟨?_, ?_, ?_, ?_, ?_, ?_⟩
  · exact hguard Value.divOp (fun x y hy => by simp [Value.divOp, hy])
  · exact hguard Value.remOp (fun x y hy => by simp [Value.remOp, hy])
  · intro x; simp [Value.div_vs, F32.eqZero]
  · intro x; simp [Value.rem_vs, F32.eqZero]
  · intro y; simp [Value.div_sv, F32.eqZero]
  · intro y; simp [Value.rem_sv, F32.eqZero]

/-- Witness for `div_rem_by_zero_amended`:
`Array([6, 8]) ÷ Array([2, 0])` and `Array([6, 8]) % Array([2, 0])`
yield 0 at leaf 1 (the zero-divisor position), and the scalar-divisor
forms short-circuit to 0. -/
theorem div_rem_by_zero_amended_witness :
    Value.getLeaf?
        (Value.div_vv (.Array [.Float (F32.num 6), .Float (F32.num 8)])
          (.Array [.Float (F32.num 2), .Float (F32.num 0)])) [1] = some (F32.num 0) ∧
    Value.getLeaf?
        (Value.rem_vv (.Array [.Float (F32.num 6), .Float (F32.num 8)])
          (.Array [.Float (F32.num 2), .Float (F32.num 0)])) [1] = some (F32.num 0) ∧
    Value.div_vs (.Float (F32.num 7)) (F32.num 0) = .Float (F32.num 0) ∧
    Value.rem_vs (.Float (F32.num 7)) (F32.num 0) = .Float (F32.num 0) ∧
    Value.div_sv (F32.num 7) (.Float (F32.num 0)) = .Float (F32.num 0) ∧
    Value.rem_sv (F32.num 7) (.Float (F32.num 0)) = .Float (F32.num 0) := by
  have hshape2 : ∀ x y : ℚ,
      HasShape (.Array [.Float (F32.num x), .Float (F32.num y)])
        (Value.get_shape (.Array [.Float (F32.num x), .Float (F32.num y)])) := by
    intro x y
    have hs : Value.get_shape (.Array [.Float (F32.num x), .Float (F32.num y)]) = [2] := by
      simp [Value.get_shape]
    rw [hs]
    refine HasShape.array rfl ?_
    intro z hz
    simp only [List.mem_cons, List.not_mem_nil, or_false] at hz
    rcases hz with h | h <;> subst h <;> exact HasShape.float _
  have h := div_rem_by_zero_amended
    (.Array [.Float (F32.num 6), .Float (F32.num 8)])
    (.Array [.Float (F32.num 2), .Float (F32.num 0)]) [1] (F32.num 8) (F32.num 0)
    (hshape2 6 8) (hshape2 2 0)
    (by simp [Value.get_shape])
    (by simp [Value.getLeaf?])
    (by simp [Value.getLeaf?])
    (by simp [F32.eqZero])
  exact ⟨h.1, h.2.1, h.2.2.1 _, h.2.2.2.1 _, h.2.2.2.2.1 _, h.2.2.2.2.2 _⟩

/-! ## C8 — `mix_at` -/

/-- The `+=` loop preserves the channel length. -/
theorem mixInto_length : ∀ (other ch : List F32) (offset : ℕ),
    (AudioSource.mixInto ch offset other).length = ch.length := by
  intro other
  induction other with
  | nil => intro ch offset; rfl
  | cons s rest ih =>
    intro ch offset
    rw [AudioSource.mixInto, ih, List.length_set]

/-- The `+=` loop leaves indices before the offset unchanged. -/
theorem mixInto_getElem_lt : ∀ (other ch : List F32) (offset i : ℕ), i < offset →
    (AudioSource.mixInto ch offset other)[i]? = ch[i]? := by
  intro other
  induction other with
  | nil => intro ch offset i _; rfl
  | cons s rest ih =>
    intro ch offset i hi
    rw [AudioSource.mixInto, ih _ _ _ (Nat.lt_succ_of_lt hi)]
    exact List.getElem?_set_ne (by omega)

/-- The `+=` loop adds the corresponding `other` sample at each
in-bounds overlap position. -/
theorem mixInto_overlap : ∀ (other ch : List F32) (offset k : ℕ) (a b : F32),
    ch[offset + k]? = some a → other[k]? = some b →
    (AudioSource.mixInto ch offset other)[offset + k]? = some (F32.fadd a b) := by
  intro other
  induction other with
  | nil =>
    intro ch offset k a b _ hb
    simp at hb
  | cons s rest ih =>
    intro ch offset k a b ha hb
    rw [AudioSource.mixInto]
    cases k with
    | zero =>
      simp only [List.getElem?_cons_zero, Option.some.injEq] at hb
      subst hb
      simp only [Nat.add_zero] at ha ⊢
      have hlen : offset < ch.length := by
        rw [List.getElem?_eq_some] at ha
        exact ha.1
      rw [mixInto_getElem_lt rest _ (offset + 1) offset (Nat.lt_succ_self _)]
      rw [List.getElem?_set_eq hlen]
      have hgd : ch.getD offset F32.zero = a := by
        rw [List.getD_eq_getElem?_getD, ha]
        rfl
      rw [hgd]
    | succ j =>
      have hidx : offset + (j + 1) = (offset + 1) + j := by omega
      rw [hidx]
      apply ih
      · rw [List.getElem?_set_ne (by omega), ← hidx]
        exact ha
      · simpa using hb

/-- Per-channel characterisation of the `mix_at` channel loop for the
channels that already exist. -/
theorem mixAtLoop_getElem (offset : ℕ) :
    ∀ (otherData : List (List F32)) (data : AudioBuffer) (channels ci c : ℕ),
      channels = data.length → c < data.length →
      ((AudioSource.mixAtLoop offset (data, channels) ci otherData).1 : AudioBuffer)[c]? =
        if ci ≤ c ∧ c - ci < otherData.length then
          some (mixChannel offset (data.getD c []) (otherData.getD (c - ci) []))
        else data[c]? := by
  intro otherData
  induction otherData with
  | nil =>
    intro data channels ci c hinv hc
    simp [AudioSource.mixAtLoop]
  | cons och rest ih =>
    intro data channels ci c hinv hc
    rw [AudioSource.mixAtLoop]
    by_cases hci : channels ≤ ci
    · -- push branch: a fresh channel is appended (or the set is a no-op),
      -- existing channels are untouched.
      have hstep : AudioSource.mixAtStep offset (data, channels) ci och =
          (((data ++ [List.replicate (offset + och.length) F32.zero]).set ci
            (AudioSource.mixInto
              ((data ++ [List.replicate (offset + och.length) F32.zero]).getD ci [])
              offset och)), channels + 1) := by
        rw [AudioSource.mixAtStep]
        simp [hci]
      rw [hstep]
      have hclt : c < ci := by omega
      have hlen' : channels + 1 =
          ((data ++ [List.replicate (offset + och.length) F32.zero]).set ci
            (AudioSource.mixInto
              ((data ++ [List.replicate (offset + och.length) F32.zero]).getD ci [])
              offset och)).length := by
        rw [List.length_set, List.length_append, hinv]
        rfl
      rw [ih _ _ (ci + 1) c hlen' (by rw [List.length_set, List.length_append]; omega)]
      have hcfalse : ¬ (ci + 1 ≤ c ∧ c - (ci + 1) < rest.length) := by omega
      have hcfalse' : ¬ (ci ≤ c ∧ c - ci < (och :: rest).length) := by omega
      rw [if_neg hcfalse, if_neg hcfalse']
      rw [List.getElem?_set_ne (by omega), List.getElem?_append_left hc]
    · -- existing-channel branch
      have hstep : AudioSource.mixAtStep offset (data, channels) ci och =
          (data.set ci (mixChannel offset (data.getD ci []) och), channels) := by
        rw [AudioSource.mixAtStep]
        simp only [hci, if_false]
        rfl
      rw [hstep]
      have hlen' : channels = (data.set ci (mixChannel offset (data.getD ci []) och)).length := by
        rw [List.length_set]; exact hinv
      rw [ih _ _ (ci + 1) c hlen' (by rw [List.length_set]; exact hc)]
      by_cases hceq : c = ci
      · subst hceq
        have h1 : ¬ (c + 1 ≤ c ∧ c - (c + 1) < rest.length) := by omega
        have h2 : c ≤ c ∧ c - c < (och :: rest).length := by simp
        rw [if_neg h1, if_pos h2]
        rw [List.getElem?_set_eq (hc : c < data.length)]
        simp
      · by_cases h3 : ci + 1 ≤ c ∧ c - (ci + 1) < rest.length
        · obtain ⟨h3a, h3b⟩ := h3
          have h4 : ci ≤ c ∧ c - ci < (och :: rest).length := by
            simp only [List.length_cons]
            omega
          rw [if_pos ⟨h3a, h3b⟩, if_pos h4]
          have hgd : (data.set ci (mixChannel offset (data.getD ci []) och)).getD c [] =
              data.getD c [] := by
            rw [List.getD_eq_getElem?_getD, List.getElem?_set_ne (by omega),
              ← List.getD_eq_getElem?_getD]
          rw [hgd]
          have hrest : rest.getD (c - (ci + 1)) [] = (och :: rest).getD (c - ci) [] := by
            have hge : c - ci = (c - (ci + 1)) + 1 := by omega
            rw [hge]
            rfl
          rw [hrest]
        · have h4 : ¬ (ci ≤ c ∧ c - ci < (och :: rest).length) := by
            simp only [List.length_cons]
            omega
          rw [if_neg h3, if_neg h4]
          rw [List.getElem?_set_ne (by omega)]

/-- **C8**: `mix_at(other, offset)` leaves every existing sample of the
receiver before `offset` unchanged, and each existing sample in the
overlapping region becomes its previous value plus the corresponding
sample of `other` (under the buffer invariant
`channels = data.len()`). -/
theorem mix_at_spec (b1 b2 : AudioSource) (offset : ℕ)
    (hinv : b1.channels = b1.data.length) :
    (∀ (c : ℕ) (ch : List F32) (i : ℕ),
        b1.data[c]? = some ch → i < offset → i < ch.length →
        ∃ ch', ((b1.mix_at b2 offset).data : AudioBuffer)[c]? = some ch' ∧
          ch'[i]? = ch[i]?) ∧
    (∀ (c : ℕ) (ch och : List F32) (k : ℕ) (a b : F32),
        b1.data[c]? = some ch → b2.data[c]? = some och →
        ch[offset + k]? = some a → och[k]? = some b →
        ∃ ch', ((b1.mix_at b2 offset).data : AudioBuffer)[c]? = some ch' ∧
          ch'[offset + k]? = some (F32.fadd a b)) := by
  have hdata : ∀ c : ℕ, c < b1.data.length →
      ((b1.mix_at b2 offset).data : AudioBuffer)[c]? =
        if c < b2.data.length then
          some (mixChannel offset (b1.data.getD c []) (b2.data.getD c []))
        else b1.data[c]? := by
    intro c hc
    show ((AudioSource.mixAtLoop offset (b1.data, b1.channels) 0 b2.data).1 :
        AudioBuffer)[c]? = _
    rw [mixAtLoop_getElem offset b2.data b1.data b1.channels 0 c hinv hc]
    simp
  constructor
  · intro c ch i hch hio hilen
    have hc : c < b1.data.length := by
      rw [List.getElem?_eq_some] at hch
      exact hch.1
    have hgd : b1.data.getD c [] = ch := by
      rw [List.getD_eq_getElem?_getD, hch]
      rfl
    rw [hdata c hc]
    by_cases hcb : c < b2.data.length
    · rw [if_pos hcb, hgd]
      refine ⟨_, rfl, ?_⟩
      unfold mixChannel
      rw [mixInto_getElem_lt _ _ _ _ hio]
      by_cases hpad : ch.length < offset + (b2.data.getD c []).length
      · rw [if_pos hpad]
        exact List.getElem?_append_left hilen
      · rw [if_neg hpad]
    · rw [if_neg hcb]
      exact ⟨ch, hch, rfl⟩
  · intro c ch och k a b hch hoch ha hb
    have hc : c < b1.data.length := by
      rw [List.getElem?_eq_some] at hch
      exact hch.1
    have hcb : c < b2.data.length := by
      rw [List.getElem?_eq_some] at hoch
      exact hoch.1
    have hgd : b1.data.getD c [] = ch := by
      rw [List.getD_eq_getElem?_getD, hch]
      rfl
    have hgo : b2.data.getD c [] = och := by
      rw [List.getD_eq_getElem?_getD, hoch]
      rfl
    rw [hdata c hc, if_pos hcb, hgd, hgo]
    refine ⟨_, rfl, ?_⟩
    unfold mixChannel
    apply mixInto_overlap _ _ _ _ _ _ _ hb
    have hka : offset + k < ch.length := by
      rw [List.getElem?_eq_some] at ha
      exact ha.1
    by_cases hpad : ch.length < offset + och.length
    · rw [if_pos hpad]
      rw [List.getElem?_append_left hka]
      exact ha
    · rw [if_neg hpad]
      exact ha

/-- Witness for `mix_at_spec`: mixing `[10]` into `[1, 2, 3]` at offset
1 keeps sample 0 at 1 and turns sample 1 into `2 + 10`. -/
theorem mix_at_spec_witness :
    (∃ ch', ((AudioSource.mix_at ⟨44100, 1, [[F32.num 1, F32.num 2, F32.num 3]]⟩
        ⟨44100, 1, [[F32.num 10]]⟩ 1).data : AudioBuffer)[0]? = some ch' ∧
      ch'[0]? = some (F32.num 1)) ∧
    (∃ ch', ((AudioSource.mix_at ⟨44100, 1, [[F32.num 1, F32.num 2, F32.num 3]]⟩
        ⟨44100, 1, [[F32.num 10]]⟩ 1).data : AudioBuffer)[0]? = some ch' ∧
      ch'[1 + 0]? = some (F32.fadd (F32.num 2) (F32.num 10))) := by
  have h := mix_at_spec ⟨44100, 1, [[F32.num 1, F32.num 2, F32.num 3]]⟩
    ⟨44100, 1, [[F32.num 10]]⟩ 1 rfl
  constructor
  · obtain ⟨ch', hc, he⟩ :=
      h.1 0 [F32.num 1, F32.num 2, F32.num 3] 0 rfl (by omega) (by simp)
    exact ⟨ch', hc, by rw [he]; rfl⟩
  · obtain ⟨ch', hc, he⟩ :=
      h.2 0 [F32.num 1, F32.num 2, F32.num 3] [F32.num 10] 0 (F32.num 2) (F32.num 10)
        rfl rfl rfl rfl
    exact ⟨ch', hc, he⟩

/-! ## C2 — topological sort -/

/-- With nothing emitted, `countIncoming` is the plain in-degree. -/
theorem countIncoming_nil_emitted (conns : List Connector) (n : ℕ) :
    countIncoming conns n [] = (conns.filter (fun c => decide (c.to_node = n))).length := by
  unfold countIncoming
  congr 1
  apply List.filter_congr
  intro c _
  simp

/-- The initial degree map counts the pending incoming connectors. -/
theorem inDegree0_eq (conns : List Connector) (n : ℕ) :
    inDegree0 conns n = (countIncoming conns n [] : ℤ) := by
  unfold inDegree0
  rw [countIncoming_nil_emitted]

/-- Emitting one more node removes exactly its outgoing connectors from
every pending count. -/
theorem countIncoming_pop (conns : List Connector) (x n : ℕ) (emitted : List ℕ)
    (hn : n ∉ emitted) :
    countIncoming conns x (emitted ++ [n]) +
      (conns.filter (fun c => decide (c.to_node = x ∧ c.from_node = n))).length =
      countIncoming conns x emitted := by
  induction conns with
  | nil => rfl
  | cons c rest ih =>
    unfold countIncoming at ih ⊢
    by_cases h1 : c.to_node = x
    · by_cases h2 : c.from_node = n
      · have hm : c.from_node ∈ emitted ++ [n] := by simp [h2]
        have hnm : c.from_node ∉ emitted := h2 ▸ hn
        rw [List.filter_cons, if_neg (by simp [hm]), List.filter_cons,
          if_pos (by simp [h1, h2]), List.filter_cons, if_pos (by simp [h1, hnm])]
        simp only [List.length_cons]
        omega
      · by_cases h3 : c.from_node ∈ emitted
        · have hm : c.from_node ∈ emitted ++ [n] := by simp [h3]
          rw [List.filter_cons, if_neg (by simp [hm]), List.filter_cons,
            if_neg (by simp [h2]), List.filter_cons, if_neg (by simp [h3])]
          exact ih
        · have hm : c.from_node ∉ emitted ++ [n] := by simp [h3, h2]
          rw [List.filter_cons, if_pos (by simp [h1, hm]), List.filter_cons,
            if_neg (by simp [h2]), List.filter_cons, if_pos (by simp [h1, h3])]
          simp only [List.length_cons]
          omega
    · rw [List.filter_cons, if_neg (by simp [h1]), List.filter_cons,
        if_neg (by simp [h1]), List.filter_cons, if_neg (by simp [h1])]
      exact ih

/-- A pending count is zero exactly when every incoming connector's
source has been emitted. -/
theorem countIncoming_eq_zero_iff (conns : List Connector) (n : ℕ) (emitted : List ℕ) :
    countIncoming conns n emitted = 0 ↔
      ∀ c ∈ conns, c.to_node = n → c.from_node ∈ emitted := by
  unfold countIncoming
  rw [List.length_eq_zero, List.filter_eq_nil_iff]
  constructor
  · intro h c hc hto
    have hh := h c hc
    simp only [decide_eq_true_eq] at hh
    by_contra hfrom
    exact hh ⟨hto, hfrom⟩
  · intro h c hc
    simp only [decide_eq_true_eq]
    rintro ⟨hto, hfrom⟩
    exact hfrom (h c hc hto)

/-- A nonzero pending count exhibits a pending incoming connector. -/
theorem countIncoming_pos_elim (conns : List Connector) (n : ℕ) (emitted : List ℕ)
    (h : countIncoming conns n emitted ≠ 0) :
    ∃ c ∈ conns, c.to_node = n ∧ c.from_node ∉ emitted := by
  by_contra hcon
  apply h
  rw [countIncoming_eq_zero_iff]
  intro c hc hto
  by_contra hf
  exact hcon ⟨c, hc, hto, hf⟩

/-- The successor multiset of `n` counts the `n → x` connectors. -/
theorem count_adjList (conns : List Connector) (n x : ℕ) :
    (adjList conns n).count x =
      (conns.filter (fun c => decide (c.to_node = x ∧ c.from_node = n))).length := by
  unfold adjList
  induction conns with
  | nil => rfl
  | cons c rest ih =>
    by_cases h1 : c.from_node = n
    · by_cases h2 : c.to_node = x
      · rw [List.filter_cons, if_pos (by simp [h1]), List.map_cons, List.count_cons,
          if_pos (by simp [h2]), List.filter_cons, if_pos (by simp [h1, h2])]
        simp only [List.length_cons]
        omega
      · rw [List.filter_cons, if_pos (by simp [h1]), List.map_cons, List.count_cons,
          if_neg (by simp [h2]), List.filter_cons, if_neg (by simp [h2])]
        omega
    · rw [List.filter_cons, if_neg (by simp [h1]), List.filter_cons,
        if_neg (by simp [h1])]
      exact ih

/-- The degree component of the neighbour loop: every successor is
decremented once per occurrence. -/
theorem processNeighbors_deg : ∀ (succs : List ℕ) (deg : ℕ → ℤ) (queue : List ℕ) (x : ℕ),
    (processNeighbors succs deg queue).1 x = deg x - succs.count x := by
  intro succs
  induction succs with
  | nil => intro deg queue x; simp [processNeighbors]
  | cons m rest ih =>
    intro deg queue x
    rw [processNeighbors, ih]
    by_cases hx : x = m
    · subst hx
      simp only [if_pos rfl, List.count_cons_self]
      push_cast
      ring
    · simp only [if_neg hx]
      rw [List.count_cons_of_ne hx]

/-- The queue component of the neighbour loop: the nodes whose degree
crossed zero are appended, each exactly once. -/
theorem processNeighbors_queue : ∀ (succs : List ℕ) (deg : ℕ → ℤ) (queue : List ℕ),
    ∃ newq : List ℕ, (processNeighbors succs deg queue).2 = queue ++ newq ∧
      newq.Nodup ∧
      (∀ m, m ∈ newq ↔ 1 ≤ deg m ∧ deg m ≤ (succs.count m : ℤ)) := by
  intro succs
  induction succs with
  | nil =>
    intro deg queue
    refine ⟨[], by simp [processNeighbors], List.nodup_nil, ?_⟩
    intro m
    simp only [List.not_mem_nil, List.count_nil, Nat.cast_zero, false_iff]
    omega
  | cons s rest ih =>
    intro deg queue
    rw [processNeighbors]
    by_cases hz : deg s - 1 = 0
    · rw [if_pos hz]
      obtain ⟨newq', h1, h2, h3⟩ :=
        ih (fun x => if x = s then deg x - 1 else deg x) (queue ++ [s])
      refine ⟨s :: newq', ?_, ?_, ?_⟩
      · rw [h1, List.append_assoc]
        rfl
      · refine List.Nodup.cons ?_ h2
        intro hmem
        have hcontra := (h3 s).mp hmem
        simp only [if_pos rfl, if_true] at hcontra
        omega
      · intro m
        by_cases hm : m = s
        · subst hm
          simp only [List.mem_cons, true_or, true_iff, List.count_cons_self]
          push_cast
          omega
        · have hh := h3 m
          simp only [if_neg hm] at hh
          simp only [List.mem_cons, hm, false_or, hh, List.count_cons_of_ne hm]
    · rw [if_neg hz]
      obtain ⟨newq', h1, h2, h3⟩ :=
        ih (fun x => if x = s then deg x - 1 else deg x) queue
      refine ⟨newq', h1, h2, ?_⟩
      intro m
      by_cases hm : m = s
      · subst hm
        have hh := h3 m
        simp only [if_pos rfl, if_true] at hh
        rw [hh, List.count_cons_self]
        push_cast
        omega
      · have hh := h3 m
        simp only [if_neg hm] at hh
        rw [hh, List.count_cons_of_ne hm]


/-- Membership in the degree-map key list: the original node ids plus
every connector target. -/
theorem degKeys_mem : ∀ (conns : List Connector) (ks : List ℕ) (x : ℕ),
    x ∈ degKeys ks conns ↔ x ∈ ks ∨ ∃ c ∈ conns, c.to_node = x := by
  intro conns
  induction conns with
  | nil => intro ks x; simp [degKeys]
  | cons c rest ih =>
    intro ks x
    simp only [degKeys] at ih ⊢
    rw [List.foldl_cons]
    by_cases hcm : c.to_node ∈ ks
    · rw [if_pos hcm, ih]
      constructor
      · rintro (hx | ⟨d, hd, hdx⟩)
        · exact Or.inl hx
        · exact Or.inr ⟨d, List.mem_cons_of_mem _ hd, hdx⟩
      · rintro (hx | ⟨d, hd, hdx⟩)
        · exact Or.inl hx
        · rcases List.mem_cons.mp hd with h | h
          · subst h; exact Or.inl (hdx ▸ hcm)
          · exact Or.inr ⟨d, h, hdx⟩
    · rw [if_neg hcm, ih]
      simp only [List.mem_append, List.mem_singleton]
      constructor
      · rintro ((hx | hx) | ⟨d, hd, hdx⟩)
        · exact Or.inl hx
        · exact Or.inr ⟨c, List.mem_cons_self _ _, hx.symm⟩
        · exact Or.inr ⟨d, List.mem_cons_of_mem _ hd, hdx⟩
      · rintro (hx | ⟨d, hd, hdx⟩)
        · exact Or.inl (Or.inl hx)
        · rcases List.mem_cons.mp hd with h | h
          · subst h; exact Or.inl (Or.inr hdx.symm)
          · exact Or.inr ⟨d, h, hdx⟩

/-- The degree-map key list has no duplicates when the node list has
none (the source map has each key once). -/
theorem degKeys_nodup : ∀ (conns : List Connector) (ks : List ℕ),
    ks.Nodup → (degKeys ks conns).Nodup := by
  intro conns
  induction conns with
  | nil => intro ks h; exact h
  | cons c rest ih =>
    intro ks h
    simp only [degKeys] at ih ⊢
    rw [List.foldl_cons]
    by_cases hcm : c.to_node ∈ ks
    · rw [if_pos hcm]
      exact ih ks h
    · rw [if_neg hcm]
      refine ih (ks ++ [c.to_node]) ?_
      rw [List.nodup_append]
      exact ⟨h, List.nodup_singleton _, fun a ha hb => hcm (by rw [List.mem_singleton] at hb; exact hb ▸ ha)⟩

/-- The invariant holds on entry to the loop: empty output, the fresh
degree map, and the queue of all zero-degree keys. -/
theorem kahnInv_init (nodes : List ℕ) (conns : List Connector) (hnd : nodes.Nodup) :
    KahnInv nodes conns
      ((degKeys nodes conns).filter (fun n => inDegree0 conns n = 0))
      (inDegree0 conns) [] := by
  have hq0 : ∀ n ∈ (degKeys nodes conns).filter (fun n => inDegree0 conns n = 0),
      n ∈ degKeys nodes conns ∧ inDegree0 conns n = 0 := by
    intro n hn
    have h := List.mem_filter.mp hn
    refine ⟨h.1, ?_⟩
    have := h.2
    simpa using this
  refine ⟨?_, ?_, ?_, ?_, ?_, ?_, ?_⟩
  · simpa using List.Nodup.filter _ (degKeys_nodup conns nodes hnd)
  · intro n hn; cases hn
  · intro n hn
    obtain ⟨hk, hz⟩ := hq0 n hn
    rcases (degKeys_mem conns nodes n).mp hk with h | ⟨c, hcc, hto⟩
    · exact h
    · exfalso
      have hmem : c ∈ conns.filter (fun d => decide (d.to_node = n)) :=
        List.mem_filter.mpr ⟨hcc, by simp [hto]⟩
      have hpos : 0 < (conns.filter (fun d => decide (d.to_node = n))).length :=
        List.length_pos_of_mem hmem
      rw [inDegree0] at hz
      omega
  · exact inDegree0_eq conns
  · intro n hn h0
    refine Or.inr (List.mem_filter.mpr ⟨(degKeys_mem conns nodes n).mpr (Or.inl hn), ?_⟩)
    simp [inDegree0_eq, h0]
  · intro c _ hto; cases hto
  · intro n hn
    have hz := (hq0 n hn).2
    rw [inDegree0_eq] at hz
    exact_mod_cast hz

/-- Scheduled nodes have no pending incoming connector: every incoming
edge source precedes them in the output. -/
theorem countIncoming_of_sorted (conns : List Connector) (sorted : List ℕ)
    (hf : ∀ c ∈ conns, c.to_node ∈ sorted →
      c.from_node ∈ sorted ∧ sorted.indexOf c.from_node < sorted.indexOf c.to_node)
    (x : ℕ) (hx : x ∈ sorted) : countIncoming conns x sorted = 0 := by
  rw [countIncoming_eq_zero_iff]
  intro c hcc hto
  exact (hf c hcc (by rwa [hto])).1

/-- One iteration of the main loop preserves the invariant: the head of
the queue moves to the output and its neighbours are decremented. -/
theorem kahnInv_step (nodes : List ℕ) (conns : List Connector) (n : ℕ) (rest : List ℕ)
    (deg : ℕ → ℤ) (sorted : List ℕ)
    (hclosed : ∀ c ∈ conns, c.to_node ∈ nodes)
    (hinv : KahnInv nodes conns (n :: rest) deg sorted) :
    KahnInv nodes conns (processNeighbors (adjList conns n) deg rest).2
      (processNeighbors (adjList conns n) deg rest).1 (sorted ++ [n]) := by
  obtain ⟨ha, hb, hc, hd, he, hf, hg⟩ := hinv
  rw [List.nodup_append] at ha
  obtain ⟨hsnd, hqnd, hdisj⟩ := ha
  rw [List.nodup_cons] at hqnd
  obtain ⟨hnr, hrnd⟩ := hqnd
  have hns : n ∉ sorted := fun h => hdisj h (List.mem_cons_self _ _)
  have hnn : n ∈ nodes := hc n (List.mem_cons_self _ _)
  have hn0 : countIncoming conns n sorted = 0 := hg n (List.mem_cons_self _ _)
  have hpop : ∀ x, countIncoming conns x (sorted ++ [n]) + (adjList conns n).count x
      = countIncoming conns x sorted := by
    intro x
    rw [count_adjList]
    exact countIncoming_pop conns x n sorted hns
  have hdeg : ∀ x, (processNeighbors (adjList conns n) deg rest).1 x
      = (countIncoming conns x (sorted ++ [n]) : ℤ) := by
    intro x
    rw [processNeighbors_deg, hd x]
    have := hpop x
    omega
  obtain ⟨newq, hq, hqnodup, hqmem⟩ := processNeighbors_queue (adjList conns n) deg rest
  have hqmem2 : ∀ m, m ∈ newq ↔
      1 ≤ countIncoming conns m sorted ∧ countIncoming conns m (sorted ++ [n]) = 0 := by
    intro m
    rw [hqmem m, hd m]
    have := hpop m
    omega
  have hsorted0 : ∀ x ∈ sorted, countIncoming conns x sorted = 0 :=
    countIncoming_of_sorted conns sorted hf
  have hnewq_not : ∀ m ∈ newq, m ∉ sorted ∧ m ∉ n :: rest := by
    intro m hm
    obtain ⟨h1, _⟩ := (hqmem2 m).mp hm
    constructor
    · intro hms; rw [hsorted0 m hms] at h1; omega
    · intro hmq; rw [hg m hmq] at h1; omega
  have hnewq_nodes : ∀ m ∈ newq, m ∈ nodes := by
    intro m hm
    obtain ⟨h1, _⟩ := (hqmem2 m).mp hm
    obtain ⟨c, hcc, hto, _⟩ := countIncoming_pos_elim conns m sorted (by omega)
    exact hto ▸ hclosed c hcc
  rw [hq]
  refine ⟨?_, ?_, ?_, hdeg, ?_, ?_, ?_⟩
  · rw [List.nodup_append]
    refine ⟨?_, ?_, ?_⟩
    · rw [List.nodup_append]
      refine ⟨hsnd, List.nodup_singleton _, ?_⟩
      intro a hain hbin
      rw [List.mem_singleton] at hbin
      exact hns (hbin ▸ hain)
    · rw [List.nodup_append]
      refine ⟨hrnd, hqnodup, ?_⟩
      intro a hain hbin
      exact (hnewq_not a hbin).2 (List.mem_cons_of_mem _ hain)
    · intro a hain hbin
      rcases List.mem_append.mp hain with h1 | h1
      · rcases List.mem_append.mp hbin with h2 | h2
        · exact hdisj h1 (List.mem_cons_of_mem _ h2)
        · exact (hnewq_not a h2).1 h1
      · rw [List.mem_singleton] at h1
        subst h1
        rcases List.mem_append.mp hbin with h2 | h2
        · exact hnr h2
        · exact (hnewq_not a h2).2 (List.mem_cons_self _ _)
  · intro x hx
    rcases List.mem_append.mp hx with h | h
    · exact hb x h
    · rw [List.mem_singleton] at h
      exact h ▸ hnn
  · intro x hx
    rcases List.mem_append.mp hx with h | h
    · exact hc x (List.mem_cons_of_mem _ h)
    · exact hnewq_nodes x h
  · intro x hx h0
    by_cases hold : countIncoming conns x sorted = 0
    · rcases he x hx hold with h | h
      · exact Or.inl (List.mem_append_left _ h)
      · rcases List.mem_cons.mp h with h | h
        · exact Or.inl (List.mem_append_right _ (by simp [h]))
        · exact Or.inr (List.mem_append_left _ h)
    · exact Or.inr (List.mem_append_right _ ((hqmem2 x).mpr ⟨by omega, h0⟩))
  · intro c hcc hto
    rcases List.mem_append.mp hto with hts | htn
    · obtain ⟨hfs, hidx⟩ := hf c hcc hts
      refine ⟨List.mem_append_left _ hfs, ?_⟩
      rw [List.indexOf_append_of_mem hfs, List.indexOf_append_of_mem hts]
      exact hidx
    · rw [List.mem_singleton] at htn
      have hfrom : c.from_node ∈ sorted := by
        have h0 := hn0
        rw [countIncoming_eq_zero_iff] at h0
        exact h0 c hcc htn
      refine ⟨List.mem_append_left _ hfrom, ?_⟩
      rw [List.indexOf_append_of_mem hfrom]
      have hlt : sorted.indexOf c.from_node < sorted.length :=
        List.indexOf_lt_length.mpr hfrom
      have hidxn : (sorted ++ [n]).indexOf c.to_node = sorted.length := by
        rw [htn, List.indexOf_append_of_not_mem hns]
        simp
      omega
  · intro m hm
    rcases List.mem_append.mp hm with h | h
    · have h0 := hg m (List.mem_cons_of_mem _ h)
      have := hpop m
      omega
    · exact ((hqmem2 m).mp h).2

/-- The loop returns the output unchanged on an empty queue. -/
theorem kahnLoop_nil (adj : ℕ → List ℕ) (fuel : ℕ) (deg : ℕ → ℤ) (sorted : List ℕ) :
    kahnLoop adj fuel [] deg sorted = sorted := by
  cases fuel <;> rfl

/-- The unfolding of one loop iteration. -/
theorem kahnLoop_succ (adj : ℕ → List ℕ) (fuel : ℕ) (n : ℕ) (rest : List ℕ)
    (deg : ℕ → ℤ) (sorted : List ℕ) :
    kahnLoop adj (fuel + 1) (n :: rest) deg sorted =
      kahnLoop adj fuel (processNeighbors (adj n) deg rest).2
        (processNeighbors (adj n) deg rest).1 (sorted ++ [n]) := rfl

/-- What the invariant yields once the queue is empty. -/
theorem kahnInv_terminal (nodes : List ℕ) (conns : List Connector)
    (deg : ℕ → ℤ) (sorted : List ℕ)
    (hinv : KahnInv nodes conns [] deg sorted) :
    sorted.Nodup ∧ (∀ x ∈ sorted, x ∈ nodes) ∧
    (∀ c ∈ conns, c.to_node ∈ sorted →
      c.from_node ∈ sorted ∧ sorted.indexOf c.from_node < sorted.indexOf c.to_node) ∧
    (∀ x ∈ nodes, countIncoming conns x sorted = 0 → x ∈ sorted) := by
  obtain ⟨ha, hb, _, _, he, hf, _⟩ := hinv
  refine ⟨by simpa using ha, hb, hf, ?_⟩
  intro x hx h0
  rcases he x hx h0 with h | h
  · exact h
  · cases h

/-- The main loop, run with enough fuel from an invariant state,
produces a duplicate-free list of graph nodes that respects the
connector order and contains every node all of whose incoming
connector sources it contains. -/
theorem kahnLoop_spec (nodes : List ℕ) (conns : List Connector)
    (hclosed : ∀ c ∈ conns, c.to_node ∈ nodes) :
    ∀ (fuel : ℕ) (queue : List ℕ) (deg : ℕ → ℤ) (sorted : List ℕ),
    KahnInv nodes conns queue deg sorted →
    nodes.length + 1 ≤ fuel + sorted.length →
    (kahnLoop (adjList conns) fuel queue deg sorted).Nodup ∧
    (∀ x ∈ kahnLoop (adjList conns) fuel queue deg sorted, x ∈ nodes) ∧
    (∀ c ∈ conns, c.to_node ∈ kahnLoop (adjList conns) fuel queue deg sorted →
      c.from_node ∈ kahnLoop (adjList conns) fuel queue deg sorted ∧
      (kahnLoop (adjList conns) fuel queue deg sorted).indexOf c.from_node <
        (kahnLoop (adjList conns) fuel queue deg sorted).indexOf c.to_node) ∧
    (∀ x ∈ nodes, countIncoming conns x (kahnLoop (adjList conns) fuel queue deg sorted) = 0 →
      x ∈ kahnLoop (adjList conns) fuel queue deg sorted) := by
  intro fuel
  induction fuel with
  | zero =>
    intro queue deg sorted hinv hfuel
    cases queue with
    | nil =>
      rw [kahnLoop_nil]
      exact kahnInv_terminal nodes conns deg sorted hinv
    | cons q qr =>
      exfalso
      obtain ⟨ha, hb, hcq, _, _, _, _⟩ := hinv
      have hsub : ∀ x ∈ sorted ++ q :: qr, x ∈ nodes := by
        intro x hx
        rcases List.mem_append.mp hx with h | h
        · exact hb x h
        · exact hcq x h
      have hlen : (sorted ++ q :: qr).length ≤ nodes.length :=
        (List.subperm_of_subset ha hsub).length_le
      simp only [List.length_append, List.length_cons] at hlen
      omega
  | succ fuel ih =>
    intro queue deg sorted hinv hfuel
    cases queue with
    | nil =>
      rw [kahnLoop_nil]
      exact kahnInv_terminal nodes conns deg sorted hinv
    | cons n rest =>
      rw [kahnLoop_succ]
      apply ih _ _ _ (kahnInv_step nodes conns n rest deg sorted hclosed hinv)
      simp only [List.length_append, List.length_singleton]
      omega

/-- If every node lacking from the output has a pending incoming
connector, an acyclic connector relation forces every node into the
output (no infinite chain of predecessors fits into a finite node
set). -/
theorem acyclic_complete (nodes : List ℕ) (conns : List Connector) (out : List ℕ)
    (hclosedf : ∀ c ∈ conns, c.from_node ∈ nodes)
    (hacyc : ∀ v, ¬ Relation.TransGen (Edge conns) v v)
    (hcomp : ∀ x ∈ nodes, countIncoming conns x out = 0 → x ∈ out) :
    ∀ x ∈ nodes, x ∈ out := by
  intro x hx
  by_contra hxo
  have step : ∀ y, ∃ z, y ∈ nodes → y ∉ out → z ∈ nodes ∧ z ∉ out ∧ Edge conns z y := by
    intro y
    by_cases hy : y ∈ nodes ∧ y ∉ out
    · obtain ⟨hyn, hyo⟩ := hy
      have hcne : countIncoming conns y out ≠ 0 := fun h => hyo (hcomp y hyn h)
      obtain ⟨c, hcc, hto, hfo⟩ := countIncoming_pos_elim conns y out hcne
      exact ⟨c.from_node, fun _ _ => ⟨hclosedf c hcc, hfo, c, hcc, rfl, hto⟩⟩
    · exact ⟨0, fun h1 h2 => absurd ⟨h1, h2⟩ hy⟩
  choose f hf using step
  have hiter : ∀ (y : ℕ), y ∈ nodes → y ∉ out → ∀ k,
      (f^[k] y ∈ nodes ∧ f^[k] y ∉ out) ∧
      (0 < k → Relation.TransGen (Edge conns) (f^[k] y) y) := by
    intro y hyn hyo k
    induction k with
    | zero =>
      refine ⟨?_, fun h => absurd h (lt_irrefl 0)⟩
      simpa using And.intro hyn hyo
    | succ k ihk =>
      obtain ⟨⟨hkn, hko⟩, htg⟩ := ihk
      have hs := hf (f^[k] y) hkn hko
      rw [Function.iterate_succ_apply']
      refine ⟨⟨hs.1, hs.2.1⟩, fun _ => ?_⟩
      rcases Nat.eq_zero_or_pos k with hk0 | hkpos
      · subst hk0
        simpa using Relation.TransGen.single hs.2.2
      · exact Relation.TransGen.head hs.2.2 (htg hkpos)
  have key : ∀ a b : ℕ, a < b → f^[a] x = f^[b] x → False := by
    intro a b hab hab2
    have hya := (hiter x hx hxo a).1
    have hd : b - a + a = b := by omega
    rw [← hd, Function.iterate_add_apply] at hab2
    have htg := (hiter (f^[a] x) hya.1 hya.2 (b - a)).2 (by omega)
    rw [← hab2] at htg
    exact hacyc (f^[a] x) htg
  obtain ⟨i, hi, j, hj, hij, heq⟩ :=
    Finset.exists_ne_map_eq_of_card_lt_of_maps_to
      (show nodes.toFinset.card < (Finset.range (nodes.length + 1)).card by
        rw [Finset.card_range]
        exact Nat.lt_succ_of_le nodes.toFinset_card_le)
      (fun k _ => List.mem_toFinset.mpr ((hiter x hx hxo k).1.1))
  rcases lt_or_gt_of_ne hij with h | h
  · exact key i j h heq
  · exact key j i h heq.symm

/-- Along any connector chain into an output member, every node lies in
the output, strictly earlier. -/
theorem cycle_not_mem (conns : List Connector) (out : List ℕ)
    (hord : ∀ c ∈ conns, c.to_node ∈ out →
      c.from_node ∈ out ∧ out.indexOf c.from_node < out.indexOf c.to_node) :
    ∀ a b, Relation.TransGen (Edge conns) a b → b ∈ out →
      a ∈ out ∧ out.indexOf a < out.indexOf b := by
  intro a b htg
  induction htg with
  | single h =>
    intro hb
    obtain ⟨c, hcc, hfa, htb⟩ := h
    have h2 := hord c hcc (htb ▸ hb)
    rw [hfa, htb] at h2
    exact h2
  | tail _ hedge ihtg =>
    intro hb
    obtain ⟨c, hcc, hfa, htb⟩ := hedge
    have h2 := hord c hcc (htb ▸ hb)
    rw [hfa, htb] at h2
    obtain ⟨h3, h4⟩ := ihtg h2.1
    exact ⟨h3, h4.trans h2.2⟩

/-- A node on a connector cycle is a connector target, hence a graph
node when the connector list is closed over the node set. -/
theorem cycle_mem_nodes (conns : List Connector) (nodes : List ℕ)
    (hclosed : ∀ c ∈ conns, c.to_node ∈ nodes) :
    ∀ v, Relation.TransGen (Edge conns) v v → v ∈ nodes := by
  intro v htg
  cases htg with
  | single h =>
    obtain ⟨c, hcc, _, htb⟩ := h
    exact htb ▸ hclosed c hcc
  | tail _ h =>
    obtain ⟨c, hcc, _, htb⟩ := h
    exact htb ▸ hclosed c hcc

/-- **C2.** `Graph::topological_sort` on a graph with distinct node ids
whose connectors join existing nodes: if the connector relation has no
cycle it returns `Ok` with a permutation of the node ids in which every
connector's `from` node precedes its `to` node, and if the relation has
a cycle it returns the `Err("Cycle detected")` that the source converts
to `NodeCycleError`. -/
theorem topological_sort_correct (g : Graph)
    (hnd : (g.nodes.map GNode.id).Nodup)
    (hclosed : ∀ c ∈ g.connections,
      c.from_node ∈ g.nodes.map GNode.id ∧ c.to_node ∈ g.nodes.map GNode.id) :
    ((∀ v, ¬ Relation.TransGen (Edge g.connections) v v) →
      ∃ out, g.topological_sort = .ok out ∧
        out.Perm (g.nodes.map GNode.id) ∧
        ∀ c ∈ g.connections, out.indexOf c.from_node < out.indexOf c.to_node) ∧
    ((∃ v, Relation.TransGen (Edge g.connections) v v) →
      g.topological_sort = .error "Cycle detected") := by
  have hclosedt : ∀ c ∈ g.connections, c.to_node ∈ g.nodes.map GNode.id :=
    fun c hc => (hclosed c hc).2
  have hclosedf : ∀ c ∈ g.connections, c.from_node ∈ g.nodes.map GNode.id :=
    fun c hc => (hclosed c hc).1
  obtain ⟨hond, hosub, hord, hocomp⟩ :=
    kahnLoop_spec (g.nodes.map GNode.id) g.connections hclosedt
      ((g.nodes.map GNode.id).length + g.connections.length + 1)
      ((degKeys (g.nodes.map GNode.id) g.connections).filter
        (fun n => inDegree0 g.connections n = 0))
      (inDegree0 g.connections) []
      (kahnInv_init (g.nodes.map GNode.id) g.connections hnd)
      (by simp only [List.length_nil]; omega)
  set out := kahnLoop (adjList g.connections)
      ((g.nodes.map GNode.id).length + g.connections.length + 1)
      ((degKeys (g.nodes.map GNode.id) g.connections).filter
        (fun n => inDegree0 g.connections n = 0))
      (inDegree0 g.connections) [] with hout
  have hts : g.topological_sort =
      (if out.length = (g.nodes.map GNode.id).length then (Except.ok out : Except String (List ℕ))
       else Except.error "Cycle detected") := by
    rw [hout]
    rfl
  constructor
  · intro hacyc
    have hcompl : ∀ x ∈ g.nodes.map GNode.id, x ∈ out :=
      acyclic_complete (g.nodes.map GNode.id) g.connections out hclosedf hacyc hocomp
    have hperm : out.Perm (g.nodes.map GNode.id) :=
      List.Subperm.antisymm (List.subperm_of_subset hond hosub)
        (List.subperm_of_subset hnd hcompl)
    refine ⟨out, ?_, hperm, ?_⟩
    · rw [hts, if_pos hperm.length_eq]
    · intro c hcc
      have hto : c.to_node ∈ out := hperm.mem_iff.mpr (hclosedt c hcc)
      exact (hord c hcc hto).2
  · rintro ⟨v, hv⟩
    have hvout : v ∉ out := by
      intro hvo
      exact lt_irrefl _ (cycle_not_mem g.connections out hord v v hv hvo).2
    have hvnodes : v ∈ g.nodes.map GNode.id :=
      cycle_mem_nodes g.connections (g.nodes.map GNode.id) hclosedt v hv
    have hsub : ∀ x ∈ out, x ∈ (g.nodes.map GNode.id).erase v := by
      intro x hxo
      rcases eq_or_ne x v with h | h
      · exact absurd (h ▸ hxo) hvout
      · exact (List.mem_erase_of_ne h).mpr (hosub x hxo)
    have hle : out.length ≤ ((g.nodes.map GNode.id).erase v).length :=
      (List.subperm_of_subset hond hsub).length_le
    rw [List.length_erase_of_mem hvnodes] at hle
    have hpos : 0 < (g.nodes.map GNode.id).length := List.length_pos_of_mem hvnodes
    rw [hts, if_neg (by omega)]

/-- Witness for `topological_sort_correct`: on the concrete one-node
self-loop graph the hypotheses hold and the cyclic branch applies. -/
theorem topological_sort_correct_witness :
    selfLoopGraph.topological_sort = Except.error "Cycle detected" :=
  (topological_sort_correct selfLoopGraph (by decide) (by decide)).2
    ⟨0, Relation.TransGen.single ⟨⟨0, "output", 0, "input"⟩, List.mem_cons_self _ _, rfl, rfl⟩⟩

end Knodiq

